import Mathlib

/-!
Verification of the INI tokenizer (package `ini`, file `ini.go`).

The Go source is a character-level state machine driven by `(*Parser).Next`.
We shallowly embed it here:

* runes become `Char`, strings become `List Char`;
* the `bufio.Reader` becomes the `input : List Char` field of `Parser`;
  `ReadRune` takes the head, `UnreadRune` is modelled by a push-back flag
  returned by each state function (the loop re-prepends the rune);
* each Go state function (`start`, `whitespace`, `section`, `comment`,
  `left`, `right`) becomes a pure function `Parser → Char → Parser × Bool ×
  StepResult` where the `Bool` records a pending `UnreadRune` and
  `StepResult` is the `(stateFunc, error)` pair of the source;
* the unbounded `for` loop of `Next` is well-founded recursion on
  `4 * input.length + rank state`: every iteration either consumes a rune
  or pushes one back while moving to a state of strictly smaller rank.

All definitions follow `ini.go` line by line; nothing is simplified.
-/

namespace Ini

/-- Model of Go's `unicode.IsSpace`: '\t', '\n', '\v', '\f', '\r', ' ',
U+0085, U+00A0 in Latin-1, and the `White_Space` code points beyond it. -/
def unicodeIsSpace (c : Char) : Bool :=
  c = '\t' || c = '\n' || c.val = 11 || c.val = 12 || c = '\r' || c = ' ' ||
  c.val = 0x85 || c.val = 0xA0 ||
  c.val = 0x1680 || (0x2000 ≤ c.val && c.val ≤ 0x200A) ||
  c.val = 0x2028 || c.val = 0x2029 || c.val = 0x202F || c.val = 0x205F ||
  c.val = 0x3000

/-- The `Token` interface of `ini.go` with its three concrete types.
`sec st en nm` is `SectionToken{Name: nm, start: st, end: en}`,
`setting e l r` is `SettingToken{Left: l, Right: r, equals: e}`,
`comment st txt` is `CommentToken{Comment: txt, start: st}`.
The lower-case rune fields are captured at token-creation time. -/
inductive Token where
  | sec (st en : Char) (nm : List Char)
  | setting (eq : Char) (lhs rhs : List Char)
  | comment (st : Char) (txt : List Char)
deriving DecidableEq, Repr

/-- The `ParseError` struct of `ini.go`. -/
structure ParseError where
  Line : Nat
  Pos : Nat
  Err : String
deriving DecidableEq, Repr

/-- Names for the six `stateFunc` values of the source. -/
inductive PState where
  | start
  | whitespace
  | sectionSt
  | commentSt
  | leftSt
  | rightSt
deriving DecidableEq, Repr

/-- The `Parser` struct of `ini.go`.  `input` replaces the `bufio.Reader`,
`buf` the `bytes.Buffer`, `t` the current-token slot. -/
structure Parser where
  Comments : List Char
  SectionStart : Char
  SectionEnd : Char
  Equals : Char
  input : List Char
  line : Nat
  pos : Nat
  eof : Bool
  buf : List Char
  t : Option Token
deriving DecidableEq, Repr

/-- `NewParser`: default configuration `#;`, `[`, `]`, `=`. -/
def NewParser (input : List Char) : Parser :=
  { Comments := ['#', ';']
    SectionStart := '['
    SectionEnd := ']'
    Equals := '='
    input := input
    line := 0
    pos := 0
    eof := false
    buf := []
    t := none }

/-- `(*Parser).parseError` of `ini.go`: only `Line` and `Err` are filled in;
the `Pos` field keeps its zero value. -/
def Parser.parseError (p : Parser) (msg : String) : ParseError :=
  { Line := p.line, Pos := 0, Err := msg }

/-- The `(stateFunc, error)` return value of a state function:
`next s` is a non-nil next state, `done` is `(nil, nil)` (token complete),
`error e` is `(nil, err)`. -/
inductive StepResult where
  | next (s : PState)
  | done
  | error (e : ParseError)
deriving DecidableEq, Repr

/-- State `start`.  The `Bool` component records a pending `UnreadRune`. -/
def Parser.startState (p : Parser) (r : Char) : Parser × Bool × StepResult :=
  let p := { p with buf := [] }
  if unicodeIsSpace r then (p, false, .next .whitespace)
  else if r = p.SectionStart then (p, false, .next .sectionSt)
  else if r = '\n' then (p, false, .next .start)
  else if p.Comments.contains r then (p, true, .next .commentSt)
  else (p, true, .next .leftSt)

/-- State `whitespace`. -/
def Parser.whitespaceState (p : Parser) (r : Char) : Parser × Bool × StepResult :=
  if p.Comments.contains r then (p, true, .next .commentSt)
  else if unicodeIsSpace r then (p, false, .next .whitespace)
  else (p, true, .next .start)

/-- State `section`. -/
def Parser.sectionState (p : Parser) (r : Char) : Parser × Bool × StepResult :=
  if r = p.SectionStart then
    (p, false, .error (p.parseError ("Unexpected rune: " ++ String.mk [r])))
  else if r = p.SectionEnd then
    ({ p with t := some (.sec p.SectionStart p.SectionEnd p.buf) }, false, .done)
  else if p.Comments.contains r then
    (p, false, .error (p.parseError ("Unexpected rune: " ++ String.mk [r])))
  else ({ p with buf := p.buf ++ [r] }, false, .next .sectionSt)

/-- Replacement for the type assertion `p.t.(*CommentToken)`: update the
comment text.  On any other token shape the Go code would panic; that shape
is unreachable from `Next` (state `comment` only ever holds a comment). -/
def setCommentText (t : Option Token) (txt : List Char) : Option Token :=
  match t with
  | some (.comment st _) => some (.comment st txt)
  | t => t

/-- State `comment`. -/
def Parser.commentState (p : Parser) (r : Char) : Parser × Bool × StepResult :=
  match p.t with
  | none => ({ p with t := some (.comment r []) }, false, .next .commentSt)
  | some _ =>
    if r = '\n' then ({ p with t := setCommentText p.t p.buf }, false, .done)
    else ({ p with buf := p.buf ++ [r] }, false, .next .commentSt)

/-- State `left`. -/
def Parser.leftState (p : Parser) (r : Char) : Parser × Bool × StepResult :=
  if r = '\n' then (p, false, .error (p.parseError "Newline in left-hand side"))
  else if r = p.Equals then
    ({ p with t := some (.setting r p.buf []), buf := [] }, false, .next .rightSt)
  else if p.Comments.contains r then
    (p, false, .error (p.parseError ("Unexpected rune: " ++ String.mk [r])))
  else ({ p with buf := p.buf ++ [r] }, false, .next .leftSt)

/-- Replacement for the type assertion `p.t.(*SettingToken)`: update the
right-hand side.  Unreachable shapes are returned unchanged (Go panics). -/
def setRight (t : Option Token) (rhs : List Char) : Option Token :=
  match t with
  | some (.setting e l _) => some (.setting e l rhs)
  | t => t

/-- State `right`. -/
def Parser.rightState (p : Parser) (r : Char) : Parser × Bool × StepResult :=
  if r = '\n' then ({ p with t := setRight p.t p.buf }, false, .done)
  else if p.Comments.contains r then
    ({ p with t := setRight p.t p.buf }, true, .done)
  else ({ p with buf := p.buf ++ [r] }, false, .next .rightSt)

/-- Dispatch on the current state, i.e. the indirect call `state(p, r)`. -/
def stepState : PState → Parser → Char → Parser × Bool × StepResult
  | .start, p, r => p.startState r
  | .whitespace, p, r => p.whitespaceState r
  | .sectionSt, p, r => p.sectionState r
  | .commentSt, p, r => p.commentState r
  | .leftSt, p, r => p.leftState r
  | .rightSt, p, r => p.rightState r

/-- Line/column bookkeeping of the read loop in `Next`. -/
def track (p : Parser) (r : Char) : Parser :=
  if r = '\n' then { p with line := p.line + 1, pos := 0 }
  else { p with pos := p.pos + 1 }

/-- Rank used for termination: a state reached by a push-back transition
always has smaller rank, so `4 * input.length + rank` decreases. -/
def rank : PState → Nat
  | .whitespace => 3
  | .start => 2
  | .commentSt => 1
  | .leftSt => 1
  | .sectionSt => 0
  | .rightSt => 0

/-- The `for` loop of `Next`, starting in state `s`: read a rune (or, at
end of input, set `eof` and feed a synthetic newline — on that path the
`UnreadRune` of a state function fails silently in Go, so the push-back
flag is ignored), update line/pos, run the state, stop on a nil state,
an error, or `eof`. -/
def Parser.nextLoop (p : Parser) (s : PState) : Parser × Option ParseError :=
  match hin : p.input with
  | [] =>
    let p1 := track { p with eof := true } '\n'
    match stepState s p1 '\n' with
    | (p2, _, .error e) => (p2, some e)
    | (p2, _, .done) => (p2, none)
    | (p2, _, .next _) => (p2, none)
  | c :: cs =>
    let p1 := track { p with input := cs } c
    match hstep : stepState s p1 c with
    | (p2, pb, .error e) =>
      ((if pb then { p2 with input := c :: p2.input } else p2), some e)
    | (p2, pb, .done) =>
      ((if pb then { p2 with input := c :: p2.input } else p2), none)
    | (p2, true, .next s2) =>
      let p3 := { p2 with input := c :: p2.input }
      if p3.eof then (p3, none) else p3.nextLoop s2
    | (p2, false, .next s2) =>
      if p2.eof then (p2, none) else p2.nextLoop s2
termination_by 4 * p.input.length + rank s
decreasing_by
  · have hgen : ∀ (s' : PState) (q : Parser) (r : Char),
        (stepState s' q r).1.input = q.input := by
      intro s' q r
      cases s' <;>
        simp only [stepState, Parser.startState, Parser.whitespaceState,
          Parser.sectionState, Parser.commentState, Parser.leftState,
          Parser.rightState] <;>
        (repeat' split) <;> rfl
    have hti : p1.input = cs := by unfold_let p1; unfold track; split <;> rfl
    have hx : (stepState s p1 c).1.input = p2.input := by rw [hstep]
    rw [hgen, hti] at hx
    have h3 : (stepState s p1 c).2 = (true, .next s2) := by rw [hstep]
    have h2 : rank s2 < rank s := by
      cases s <;> cases s2 <;>
        simp only [stepState, Parser.startState, Parser.whitespaceState,
          Parser.sectionState, Parser.commentState, Parser.leftState,
          Parser.rightState] at h3 <;>
        (repeat' split at h3) <;>
        simp_all [rank]
    simp [← hx, hin]
    omega
  · have hgen : ∀ (s' : PState) (q : Parser) (r : Char),
        (stepState s' q r).1.input = q.input := by
      intro s' q r
      cases s' <;>
        simp only [stepState, Parser.startState, Parser.whitespaceState,
          Parser.sectionState, Parser.commentState, Parser.leftState,
          Parser.rightState] <;>
        (repeat' split) <;> rfl
    have hti : p1.input = cs := by unfold_let p1; unfold track; split <;> rfl
    have hx : (stepState s p1 c).1.input = p2.input := by rw [hstep]
    rw [hgen, hti] at hx
    have h2 : rank s2 ≤ 3 := by cases s2 <;> simp [rank]
    simp [← hx, hin]
    omega

/-- The possible `error` results of `(*Parser).Next`: `io.EOF` or a
`*ParseError`.  (A pure list source never fails, so the pass-through of a
non-EOF read error cannot arise in the model.) -/
inductive GoErr where
  | eofErr
  | perr (e : ParseError)
deriving DecidableEq, Repr

/-- `(*Parser).Next`: returns the mutated parser together with the Go
return pair `(Token, error)`, both components optional exactly as the Go
interface values are nil-able. -/
def Parser.Next (p : Parser) : Parser × Option Token × Option GoErr :=
  if p.eof then (p, none, some .eofErr)
  else
    match Parser.nextLoop { p with t := none } .start with
    | (p', some e) => (p', none, some (.perr e))
    | (p', none) =>
      if p'.eof ∧ p'.t = none then (p', none, some .eofErr)
      else (p', p'.t, none)

/-- Continuation of one loop iteration as a function of the state-function
result; only used to phrase the unfolding lemmas of `nextLoop`. -/
def nextLoopAux (c : Char) (p2 : Parser) (pb : Bool) :
    StepResult → Parser × Option ParseError
  | .error e => ((if pb then { p2 with input := c :: p2.input } else p2), some e)
  | .done => ((if pb then { p2 with input := c :: p2.input } else p2), none)
  | .next s2 =>
    if pb then
      if ({ p2 with input := c :: p2.input } : Parser).eof then
        ({ p2 with input := c :: p2.input }, none)
      else Parser.nextLoop { p2 with input := c :: p2.input } s2
    else if p2.eof then (p2, none) else p2.nextLoop s2

/-- Fuel-indexed version of the loop, used only to let the kernel compute
concrete runs; `nextLoopFuel_eq` shows it agrees with `nextLoop` whenever
the fuel exceeds the termination measure. -/
def nextLoopFuel : Nat → Parser → PState → Parser × Option ParseError
  | 0, p, _ => (p, none)
  | fuel + 1, p, s =>
    match p.input with
    | [] =>
      match stepState s (track { p with eof := true } '\n') '\n' with
      | (p2, _, .error e) => (p2, some e)
      | (p2, _, .done) => (p2, none)
      | (p2, _, .next _) => (p2, none)
    | c :: cs =>
      match stepState s (track { p with input := cs } c) c with
      | (p2, pb, .error e) =>
        ((if pb then { p2 with input := c :: p2.input } else p2), some e)
      | (p2, pb, .done) =>
        ((if pb then { p2 with input := c :: p2.input } else p2), none)
      | (p2, true, .next s2) =>
        if ({ p2 with input := c :: p2.input } : Parser).eof then
          ({ p2 with input := c :: p2.input }, none)
        else nextLoopFuel fuel { p2 with input := c :: p2.input } s2
      | (p2, false, .next s2) =>
        if p2.eof then (p2, none) else nextLoopFuel fuel p2 s2

/-- The measure-plus-one fuel always suffices. -/
def enoughFuel (p : Parser) (s : PState) : Nat :=
  4 * p.input.length + rank s + 1

/-- Computable form of `Next` (used to evaluate concrete runs). -/
def NextF (p : Parser) : Parser × Option Token × Option GoErr :=
  if p.eof then (p, none, some .eofErr)
  else
    match nextLoopFuel (enoughFuel { p with t := none } .start)
        { p with t := none } .start with
    | (p', some e) => (p', none, some (.perr e))
    | (p', none) =>
      if p'.eof ∧ p'.t = none then (p', none, some .eofErr)
      else (p', p'.t, none)

/-- The `String()` methods of the three token types: each one renders the
token from its own captured fields only (no parser is consulted). -/
def tokString : Token → List Char
  | .sec st en nm => st :: nm ++ [en]
  | .setting e l r => l ++ e :: r
  | .comment st txt => st :: txt

/-- Results of `n` successive calls to `Next`. -/
def nextN : Nat → Parser → List (Option Token × Option GoErr)
  | 0, _ => []
  | n + 1, p => p.Next.2 :: nextN n p.Next.1

/-- Computable form of `nextN`. -/
def nextNF : Nat → Parser → List (Option Token × Option GoErr)
  | 0, _ => []
  | n + 1, p => (NextF p).2 :: nextNF n (NextF p).1

/-- The tokens produced by `n` successive calls to `Next`. -/
def toksN : Nat → Parser → List Token
  | 0, _ => []
  | n + 1, p =>
    match p.Next.2.1 with
    | some tok => tok :: toksN n p.Next.1
    | none => toksN n p.Next.1

/-- Computable form of `toksN`. -/
def toksNF : Nat → Parser → List Token
  | 0, _ => []
  | n + 1, p =>
    match (NextF p).2.1 with
    | some tok => tok :: toksNF n (NextF p).1
    | none => toksNF n (NextF p).1

/-- A character that is none of the structural characters of the default
configuration: not a newline, separator, comment marker or section
delimiter. -/
def goodChar (c : Char) : Prop :=
  c ≠ '\n' ∧ c ≠ '=' ∧ c ≠ '#' ∧ c ≠ ';' ∧ c ≠ '[' ∧ c ≠ ']'

instance (c : Char) : Decidable (goodChar c) := by
  unfold goodChar; infer_instance

/-- A parser whose configuration fields still hold the `NewParser`
defaults. -/
def defaultCfg (p : Parser) : Prop :=
  p.Comments = ['#', ';'] ∧ p.SectionStart = '[' ∧ p.SectionEnd = ']' ∧
    p.Equals = '='

/-- The ways state `start` can hand a rune over to state `left` (or state
`section`/`comment` can be ruled out): not whitespace, not the section
start, not a comment marker. -/
def startCharOK (p : Parser) (c : Char) : Prop :=
  unicodeIsSpace c = false ∧ c ≠ p.SectionStart ∧
    p.Comments.contains c = false

/-- The shape of every token the machine can complete, phrased against
the configuration that was active while it was built. -/
def TokOK (p : Parser) : Token → Prop
  | .sec st en nm =>
    st = p.SectionStart ∧ en = p.SectionEnd ∧ st ≠ en ∧
      unicodeIsSpace st = false ∧
      ∀ c ∈ nm, c ≠ p.SectionStart ∧ c ≠ p.SectionEnd ∧
        p.Comments.contains c = false
  | .setting e l r =>
    e = p.Equals ∧ e ≠ '\n' ∧
      (∀ c ∈ l, c ≠ '\n' ∧ c ≠ p.Equals ∧ p.Comments.contains c = false) ∧
      (∀ c, (l ++ [e]).head? = some c → startCharOK p c) ∧
      (∀ c ∈ r, c ≠ '\n' ∧ p.Comments.contains c = false)
  | .comment m _ => p.Comments.contains m = true

/-- Invariant of the loop of `Next`, per machine state. -/
def Inv : PState → Parser → Prop
  | .start, p => p.t = none
  | .whitespace, p => p.t = none
  | .sectionSt, p =>
    p.t = none ∧ unicodeIsSpace p.SectionStart = false ∧
      ∀ c ∈ p.buf, c ≠ p.SectionStart ∧ c ≠ p.SectionEnd ∧
        p.Comments.contains c = false
  | .commentSt, p =>
    (p.t = none → ∃ c cs, p.input = c :: cs ∧ p.Comments.contains c = true) ∧
      ∀ tok, p.t = some tok → ∃ m txt, tok = .comment m txt ∧
        p.Comments.contains m = true
  | .leftSt, p =>
    p.t = none ∧
      (∀ c ∈ p.buf, c ≠ '\n' ∧ c ≠ p.Equals ∧
        p.Comments.contains c = false) ∧
      (∀ c, (p.buf ++ p.input).head? = some c → startCharOK p c)
  | .rightSt, p =>
    ∃ l, p.t = some (.setting p.Equals l []) ∧ p.Equals ≠ '\n' ∧
      (∀ c ∈ l, c ≠ '\n' ∧ c ≠ p.Equals ∧ p.Comments.contains c = false) ∧
      (∀ c, (l ++ [p.Equals]).head? = some c → startCharOK p c) ∧
      (∀ c ∈ p.buf, c ≠ '\n' ∧ p.Comments.contains c = false)

/-- A fresh parser carrying the same configuration as `p`, reading
`input`: "tokenizing that text with a fresh parser under the same
configuration". -/
def freshCfg (p : Parser) (input : List Char) : Parser :=
  { NewParser input with
    Comments := p.Comments, SectionStart := p.SectionStart,
    SectionEnd := p.SectionEnd, Equals := p.Equals }

/-- Two parsers that agree on everything except the line/position
counters.  Position tracking is purely observational, so the machine
behaves identically on related parsers. -/
def Sim (p q : Parser) : Prop :=
  p.Comments = q.Comments ∧ p.SectionStart = q.SectionStart ∧
    p.SectionEnd = q.SectionEnd ∧ p.Equals = q.Equals ∧
    p.input = q.input ∧ p.eof = q.eof ∧ p.buf = q.buf ∧ p.t = q.t

/-- Relation between the results of one state step on `Sim`-related
parsers: same successor state, same completion, errors may differ (they
embed the line counter). -/
def ResSim : StepResult → StepResult → Prop
  | .next s1, .next s2 => s1 = s2
  | .done, .done => True
  | .error _, .error _ => True
  | _, _ => False


/-! ## Theorems -/

theorem rank_le_three (s : PState) : rank s ≤ 3 := by
  cases s <;> simp [rank]

theorem stepState_input (s : PState) (p : Parser) (r : Char) :
    (stepState s p r).1.input = p.input := by
  cases s <;>
    simp only [stepState, Parser.startState, Parser.whitespaceState,
      Parser.sectionState, Parser.commentState, Parser.leftState,
      Parser.rightState] <;>
    (repeat' split) <;> rfl

theorem stepState_eof (s : PState) (p : Parser) (r : Char) :
    (stepState s p r).1.eof = p.eof := by
  cases s <;>
    simp only [stepState, Parser.startState, Parser.whitespaceState,
      Parser.sectionState, Parser.commentState, Parser.leftState,
      Parser.rightState] <;>
    (repeat' split) <;> rfl

theorem stepState_pb_rank (s : PState) (p : Parser) (r : Char)
    (q : Parser) (s' : PState)
    (h : stepState s p r = (q, true, .next s')) : rank s' < rank s := by
  have h2 : (stepState s p r).2 = (true, .next s') := by rw [h]
  clear h
  cases s <;> cases s' <;>
    simp only [stepState, Parser.startState, Parser.whitespaceState,
      Parser.sectionState, Parser.commentState, Parser.leftState,
      Parser.rightState] at h2 <;>
    (repeat' split at h2) <;>
    simp_all [rank]

theorem track_input (p : Parser) (r : Char) : (track p r).input = p.input := by
  unfold track; split <;> rfl

theorem track_eof (p : Parser) (r : Char) : (track p r).eof = p.eof := by
  unfold track; split <;> rfl


/-- One-step unfolding of `nextLoop` at end of input. -/
theorem nextLoop_nil (p : Parser) (s : PState) (h : p.input = []) :
    p.nextLoop s =
      (match stepState s (track { p with eof := true } '\n') '\n' with
       | (p2, _, .error e) => (p2, some e)
       | (p2, _, .done) => (p2, none)
       | (p2, _, .next _) => (p2, none)) := by
  conv_lhs => unfold Parser.nextLoop
  split
  · rfl
  · rename_i c cs heq
    rw [h] at heq
    exact absurd heq (by simp)

/-- One-step unfolding of `nextLoop` on a real rune. -/
theorem nextLoop_cons (p : Parser) (s : PState) (c : Char) (cs : List Char)
    (h : p.input = c :: cs) (p2 : Parser) (pb : Bool) (res : StepResult)
    (hs : stepState s (track { p with input := cs } c) c = (p2, pb, res)) :
    p.nextLoop s = nextLoopAux c p2 pb res := by
  conv_lhs => unfold Parser.nextLoop
  split
  · rename_i heq
    rw [h] at heq
    exact absurd heq (by simp)
  · rename_i c' cs' heq
    rw [h] at heq
    injection heq with h1 h2
    subst h1; subst h2
    dsimp only
    split <;> rename_i hmatch <;> rw [hs] at hmatch <;>
      (injection hmatch with e1 e2; injection e2 with e2 e3) <;>
      subst e1 <;> subst e2 <;>
      simp_all [nextLoopAux]

section StepLemmas

variable (p : Parser) (s : PState) (c : Char) (cs : List Char)

/-- One-step unfolding of `nextLoop` when the state returns an error. -/
theorem nextLoop_cons_error (h : p.input = c :: cs) (p2 : Parser) (pb : Bool)
    (e : ParseError)
    (hs : stepState s (track { p with input := cs } c) c = (p2, pb, .error e)) :
    p.nextLoop s =
      ((if pb then { p2 with input := c :: p2.input } else p2), some e) := by
  rw [nextLoop_cons p s c cs h p2 pb _ hs, nextLoopAux]

/-- One-step unfolding of `nextLoop` when the state completes a token. -/
theorem nextLoop_cons_done (h : p.input = c :: cs) (p2 : Parser) (pb : Bool)
    (hs : stepState s (track { p with input := cs } c) c = (p2, pb, .done)) :
    p.nextLoop s =
      ((if pb then { p2 with input := c :: p2.input } else p2), none) := by
  rw [nextLoop_cons p s c cs h p2 pb _ hs, nextLoopAux]

/-- One-step unfolding of `nextLoop` when the state continues after a
push-back. -/
theorem nextLoop_cons_next_pb (h : p.input = c :: cs) (p2 : Parser)
    (s2 : PState)
    (hs : stepState s (track { p with input := cs } c) c = (p2, true, .next s2)) :
    p.nextLoop s =
      (if ({ p2 with input := c :: p2.input } : Parser).eof then
        ({ p2 with input := c :: p2.input }, none)
      else Parser.nextLoop { p2 with input := c :: p2.input } s2) := by
  rw [nextLoop_cons p s c cs h p2 true _ hs, nextLoopAux]
  simp

/-- One-step unfolding of `nextLoop` when the state continues normally. -/
theorem nextLoop_cons_next (h : p.input = c :: cs) (p2 : Parser) (s2 : PState)
    (hs : stepState s (track { p with input := cs } c) c = (p2, false, .next s2)) :
    p.nextLoop s = (if p2.eof then (p2, none) else p2.nextLoop s2) := by
  rw [nextLoop_cons p s c cs h p2 false _ hs, nextLoopAux]
  simp

end StepLemmas

theorem nextLoopFuel_eq : ∀ (fuel : Nat) (p : Parser) (s : PState),
    4 * p.input.length + rank s < fuel → nextLoopFuel fuel p s = p.nextLoop s := by
  intro fuel
  induction fuel with
  | zero => intro p s h; omega
  | succ f ih =>
    intro p s h
    rcases hin : p.input with _ | ⟨c, cs⟩
    · rw [nextLoop_nil p s hin]
      simp only [nextLoopFuel, hin]
    · simp only [nextLoopFuel, hin]
      rcases hstep : stepState s (track { p with input := cs } c) c with ⟨p2, pb, res⟩
      have hp2 : p2.input = cs := by
        have := stepState_input s (track { p with input := cs } c) c
        rw [hstep] at this
        simpa [track_input] using this
      rcases res with s2 | _ | e
      · rcases pb
        · rw [nextLoop_cons_next p s c cs hin p2 s2 hstep]
          simp only [hstep]
          split
          · rfl
          · apply ih
            rw [hin] at h
            have := rank_le_three s2
            simp only [hp2, List.length_cons] at *
            omega
        · rw [nextLoop_cons_next_pb p s c cs hin p2 s2 hstep]
          simp only [hstep]
          split
          · rfl
          · apply ih
            rw [hin] at h
            have hlt : rank s2 < rank s := stepState_pb_rank s _ c p2 s2 hstep
            simp only [hp2, List.length_cons] at *
            omega
      · rw [nextLoop_cons_done p s c cs hin p2 pb hstep]
        simp only [hstep]
      · rw [nextLoop_cons_error p s c cs hin p2 pb e hstep]
        simp only [hstep]

theorem Next_eq_NextF (p : Parser) : p.Next = NextF p := by
  unfold Parser.Next NextF
  rw [nextLoopFuel_eq]
  unfold enoughFuel
  omega

theorem nextN_eq_nextNF : ∀ (n : Nat) (p : Parser), nextN n p = nextNF n p := by
  intro n
  induction n with
  | zero => intro p; rfl
  | succ m ih =>
    intro p
    simp only [nextN, nextNF, Next_eq_NextF, ih]

/-! ## Claim C1: the concrete default scenario -/

/-- C1: starting from a freshly constructed parser with default
configuration reading `"[Test 1]\nThis=is\n# Comment\na=test."`,
successive calls to `Next` return, in order, a section token `Test 1`, a
setting `This=is`, a comment `' Comment'` with marker `#`, a setting
`a=test.`, and then the end-of-stream signal `io.EOF`. -/
theorem C1_default_scenario :
    nextN 5 (NewParser ("[Test 1]\nThis=is\n# Comment\na=test.".toList)) =
      [(some (.sec '[' ']' "Test 1".toList), none),
       (some (.setting '=' "This".toList "is".toList), none),
       (some (.comment '#' " Comment".toList), none),
       (some (.setting '=' "a".toList "test.".toList), none),
       (none, some .eofErr)] := by
  rw [nextN_eq_nextNF]
  decide

/-! ## Claim C2: errors are not sticky in `ini.go` -/

/-- C2 counterexample: for the input `"abc\ndef=ghi"` the first call to
`Next` returns the `NewlineInKey` error, but the second call does NOT
return that error again — it resumes and returns the setting `def=ghi`.
This refutes the claim that a tokenization error poisons the stream. -/
theorem C2_counterexample :
    (NewParser "abc\ndef=ghi".toList).Next.2 =
        (none, some (.perr ⟨1, 0, "Newline in left-hand side"⟩)) ∧
      (NewParser "abc\ndef=ghi".toList).Next.1.Next.2 =
        (some (.setting '=' "def".toList "ghi".toList), none) ∧
      (NewParser "abc\ndef=ghi".toList).Next.1.Next.2 ≠
        (none, some (.perr ⟨1, 0, "Newline in left-hand side"⟩)) := by
  simp only [Next_eq_NextF]
  decide

/-- C2 amended: only the end-of-stream condition is sticky (once `eof` is
set every later call returns `io.EOF` again); a tokenization error is
returned once and the next call resumes with the remaining input, as the
`"abc\ndef=ghi"` run shows: error, then `Setting{def,ghi}`, then `io.EOF`
forever. -/
theorem C2_amended_not_sticky :
    (∀ p : Parser, p.eof = true → p.Next = (p, none, some .eofErr)) ∧
      nextN 4 (NewParser "abc\ndef=ghi".toList) =
        [(none, some (.perr ⟨1, 0, "Newline in left-hand side"⟩)),
         (some (.setting '=' "def".toList "ghi".toList), none),
         (none, some .eofErr),
         (none, some .eofErr)] := by
  constructor
  · intro p hp
    simp [Parser.Next, hp]
  · rw [nextN_eq_nextNF]
    decide

/-- Witness for the hypothesis of `C2_amended_not_sticky`: a parser whose
`eof` flag is set keeps answering `io.EOF`. -/
theorem C2_amended_not_sticky_witness :
    ({ NewParser [] with eof := true } : Parser).Next =
      ({ NewParser [] with eof := true }, none, some .eofErr) :=
  C2_amended_not_sticky.1 { NewParser [] with eof := true } rfl

/-! ## Claim C6: the `Pos` field of errors is never set -/

/-- C6: `ini.go`'s `parseError` fills in only `Line` and `Err`; the `Pos`
field keeps its zero value.  On input `"a#"` the offending rune `#` is
read at column 3 of the position tracker (the parser returned by `Next`
has `pos = 3`), yet the returned error carries `Pos = 0`.  The claim that
both `Line` and `Pos` are set from the tracker is contradicted by the
code; the sibling revision of the file does set `Pos: p.pos`. -/
theorem C6_pos_never_set :
    (NewParser "a#".toList).Next.2 =
        (none, some (.perr { Line := 0, Pos := 0, Err := "Unexpected rune: #" })) ∧
      (NewParser "a#".toList).Next.1.pos = 3 ∧
      (∀ p : Parser, ∀ msg : String, (p.parseError msg).Pos = 0) := by
  refine ⟨?_, ?_, fun p msg => rfl⟩ <;> simp only [Next_eq_NextF] <;> decide

/-! ## Single-step entry lemmas for state `start` -/

/-- From `start`, a rune that is not whitespace, not the section start,
not a newline and not a comment marker is pushed back and hands over to
state `left`. -/
theorem start_to_left (p : Parser) (c : Char) (cs : List Char)
    (h : p.input = c :: cs) (heof : p.eof = false)
    (hsp : unicodeIsSpace c = false) (hss : c ≠ p.SectionStart)
    (hcm : p.Comments.contains c = false) :
    p.nextLoop .start =
      Parser.nextLoop
        { p with input := c :: cs, buf := [], pos := p.pos + 1 } .leftSt := by
  have hnl : c ≠ '\n' := by
    intro hc; subst hc; simp [unicodeIsSpace] at hsp
  have hcm' : c ∉ p.Comments := by simpa using hcm
  have hs : stepState .start (track { p with input := cs } c) c =
      ({ p with input := cs, pos := p.pos + 1, buf := [] }, true, .next .leftSt) := by
    simp [stepState, Parser.startState, track, hsp, hss, hnl, hcm']
  rw [nextLoop_cons_next_pb p .start c cs h _ _ hs]
  simp [heof]

/-- From `start`, a comment marker is pushed back and hands over to state
`comment`. -/
theorem start_to_comment (p : Parser) (c : Char) (cs : List Char)
    (h : p.input = c :: cs) (heof : p.eof = false)
    (hsp : unicodeIsSpace c = false) (hss : c ≠ p.SectionStart)
    (hcm : p.Comments.contains c = true) :
    p.nextLoop .start =
      Parser.nextLoop
        { p with input := c :: cs, buf := [], pos := p.pos + 1 } .commentSt := by
  have hnl : c ≠ '\n' := by
    intro hc; subst hc; simp [unicodeIsSpace] at hsp
  have hcm' : c ∈ p.Comments := by simpa using hcm
  have hs : stepState .start (track { p with input := cs } c) c =
      ({ p with input := cs, pos := p.pos + 1, buf := [] }, true, .next .commentSt) := by
    simp [stepState, Parser.startState, track, hsp, hss, hnl, hcm']
  rw [nextLoop_cons_next_pb p .start c cs h _ _ hs]
  simp [heof]

/-- From `start`, the section-start rune is consumed and hands over to
state `section`. -/
theorem start_to_section (p : Parser) (cs : List Char)
    (h : p.input = p.SectionStart :: cs) (heof : p.eof = false)
    (hsp : unicodeIsSpace p.SectionStart = false) :
    p.nextLoop .start =
      Parser.nextLoop
        { p with input := cs, buf := [], pos := p.pos + 1 } .sectionSt := by
  have hnl : p.SectionStart ≠ '\n' := by
    intro hc; rw [hc] at hsp; simp [unicodeIsSpace] at hsp
  have hs : stepState .start (track { p with input := cs } p.SectionStart)
        p.SectionStart =
      ({ p with input := cs, pos := p.pos + 1, buf := [] }, false,
        .next .sectionSt) := by
    simp [stepState, Parser.startState, track, hsp, hnl]
  rw [nextLoop_cons_next p .start p.SectionStart cs h _ _ hs]
  simp [heof]

/-! ## Run lemmas: consuming a block of runes inside one state -/

/-- State `left` consumes the key and the separator and hands over to
state `right` with the setting token created. -/
theorem run_left (k : List Char) : ∀ (p : Parser) (rest : List Char),
    p.eof = false → p.Equals ≠ '\n' →
    (∀ c ∈ k, c ≠ '\n' ∧ c ≠ p.Equals ∧ p.Comments.contains c = false) →
    p.input = k ++ p.Equals :: rest →
    ∃ ps, p.nextLoop .leftSt =
      Parser.nextLoop
        { p with
          input := rest, pos := ps, buf := [],
          t := some (.setting p.Equals (p.buf ++ k) []) } .rightSt := by
  induction k with
  | nil =>
    intro p rest heof hEq hk hin
    refine ⟨p.pos + 1, ?_⟩
    have hs : stepState .leftSt (track { p with input := rest } p.Equals)
          p.Equals =
        ({ p with
            input := rest, pos := p.pos + 1, buf := [],
            t := some (.setting p.Equals p.buf []) }, false, .next .rightSt) := by
      simp [stepState, Parser.leftState, track, hEq]
    rw [nextLoop_cons_next p .leftSt p.Equals rest (by simpa using hin) _ _ hs]
    simp [heof]
  | cons a k ih =>
    intro p rest heof hEq hk hin
    obtain ⟨ha1, ha2, ha3⟩ := hk a (by simp)
    have ha3' : a ∉ p.Comments := by simpa using ha3
    have hs : stepState .leftSt (track { p with input := k ++ p.Equals :: rest } a) a =
        ({ p with
            input := k ++ p.Equals :: rest, pos := p.pos + 1,
            buf := p.buf ++ [a] }, false, .next .leftSt) := by
      simp [stepState, Parser.leftState, track, ha1, ha2, ha3']
    rw [nextLoop_cons_next p .leftSt a _ (by simpa using hin) _ _ hs]
    obtain ⟨ps, hps⟩ := ih
      { p with
        input := k ++ p.Equals :: rest, pos := p.pos + 1, buf := p.buf ++ [a] }
      rest heof hEq (fun c hc => hk c (by simp [hc])) rfl
    refine ⟨ps, ?_⟩
    rw [if_neg (by simp [heof]), hps]
    simp

/-- State `right` consumes the value up to a newline and completes the
setting token. -/
theorem run_right_nl (v : List Char) : ∀ (p : Parser) (rest : List Char),
    p.eof = false →
    (∀ c ∈ v, c ≠ '\n' ∧ p.Comments.contains c = false) →
    p.input = v ++ '\n' :: rest →
    p.nextLoop .rightSt =
      ({ p with
        input := rest, line := p.line + 1, pos := 0,
        buf := p.buf ++ v, t := setRight p.t (p.buf ++ v) }, none) := by
  induction v with
  | nil =>
    intro p rest heof hv hin
    have hs : stepState .rightSt (track { p with input := rest } '\n') '\n' =
        ({ p with
            input := rest, line := p.line + 1, pos := 0,
            t := setRight p.t p.buf }, false, .done) := by
      simp [stepState, Parser.rightState, track]
    rw [nextLoop_cons_done p .rightSt '\n' rest (by simpa using hin) _ _ hs]
    simp
  | cons a v ih =>
    intro p rest heof hv hin
    obtain ⟨ha1, ha2⟩ := hv a (by simp)
    have ha2' : a ∉ p.Comments := by simpa using ha2
    have hs : stepState .rightSt (track { p with input := v ++ '\n' :: rest } a) a =
        ({ p with
            input := v ++ '\n' :: rest, pos := p.pos + 1,
            buf := p.buf ++ [a] }, false, .next .rightSt) := by
      simp [stepState, Parser.rightState, track, ha1, ha2']
    rw [nextLoop_cons_next p .rightSt a _ (by simpa using hin) _ _ hs]
    rw [if_neg (by simp [heof])]
    rw [ih
        { p with
          input := v ++ '\n' :: rest, pos := p.pos + 1, buf := p.buf ++ [a] }
        rest heof (fun c hc => hv c (by simp [hc])) rfl]
    simp

/-- State `right` completes the setting token at end of input via the
synthetic newline, setting the `eof` flag. -/
theorem run_right_eof (v : List Char) : ∀ (p : Parser),
    p.eof = false →
    (∀ c ∈ v, c ≠ '\n' ∧ p.Comments.contains c = false) →
    p.input = v →
    p.nextLoop .rightSt =
      ({ p with
        input := [], eof := true, line := p.line + 1, pos := 0,
        buf := p.buf ++ v, t := setRight p.t (p.buf ++ v) }, none) := by
  induction v with
  | nil =>
    intro p heof hv hin
    rw [nextLoop_nil p .rightSt hin]
    have hs : stepState .rightSt (track { p with eof := true } '\n') '\n' =
        ({ p with
            eof := true, line := p.line + 1, pos := 0,
            t := setRight p.t p.buf }, false, .done) := by
      simp [stepState, Parser.rightState, track]
    rw [hs]
    simp [hin]
  | cons a v ih =>
    intro p heof hv hin
    obtain ⟨ha1, ha2⟩ := hv a (by simp)
    have ha2' : a ∉ p.Comments := by simpa using ha2
    have hs : stepState .rightSt (track { p with input := v } a) a =
        ({ p with
            input := v, pos := p.pos + 1,
            buf := p.buf ++ [a] }, false, .next .rightSt) := by
      simp [stepState, Parser.rightState, track, ha1, ha2']
    rw [nextLoop_cons_next p .rightSt a _ (by simpa using hin) _ _ hs]
    rw [if_neg (by simp [heof])]
    rw [ih { p with input := v, pos := p.pos + 1, buf := p.buf ++ [a] }
        heof (fun c hc => hv c (by simp [hc])) rfl]
    simp

/-- State `right` stops in front of a comment marker without consuming
it, completing the setting token. -/
theorem run_right_pb (v : List Char) : ∀ (p : Parser) (m : Char)
    (rest : List Char),
    p.eof = false → m ≠ '\n' → p.Comments.contains m = true →
    (∀ c ∈ v, c ≠ '\n' ∧ p.Comments.contains c = false) →
    p.input = v ++ m :: rest →
    ∃ ps, p.nextLoop .rightSt =
      ({ p with
        input := m :: rest, pos := ps,
        buf := p.buf ++ v, t := setRight p.t (p.buf ++ v) }, none) := by
  induction v with
  | nil =>
    intro p m rest heof hm1 hm2 hv hin
    refine ⟨p.pos + 1, ?_⟩
    have hm2' : m ∈ p.Comments := by simpa using hm2
    have hs : stepState .rightSt (track { p with input := rest } m) m =
        ({ p with
            input := rest, pos := p.pos + 1,
            t := setRight p.t p.buf }, true, .done) := by
      simp [stepState, Parser.rightState, track, hm1, hm2']
    rw [nextLoop_cons_done p .rightSt m rest (by simpa using hin) _ _ hs]
    simp
  | cons a v ih =>
    intro p m rest heof hm1 hm2 hv hin
    obtain ⟨ha1, ha2⟩ := hv a (by simp)
    have ha2' : a ∉ p.Comments := by simpa using ha2
    have hs : stepState .rightSt (track { p with input := v ++ m :: rest } a) a =
        ({ p with
            input := v ++ m :: rest, pos := p.pos + 1,
            buf := p.buf ++ [a] }, false, .next .rightSt) := by
      simp [stepState, Parser.rightState, track, ha1, ha2']
    rw [nextLoop_cons_next p .rightSt a _ (by simpa using hin) _ _ hs]
    rw [if_neg (by simp [heof])]
    obtain ⟨ps, hps⟩ := ih
      { p with
        input := v ++ m :: rest, pos := p.pos + 1, buf := p.buf ++ [a] }
      m rest heof hm1 hm2 (fun c hc => hv c (by simp [hc])) rfl
    refine ⟨ps, ?_⟩
    rw [hps]
    simp

/-- State `comment` creates the comment token from the first rune it
consumes (the pushed-back marker). -/
theorem comment_create (p : Parser) (m : Char) (rest : List Char)
    (h : p.input = m :: rest) (heof : p.eof = false) (ht : p.t = none)
    (hm : m ≠ '\n') :
    p.nextLoop .commentSt =
      Parser.nextLoop
        { p with input := rest, pos := p.pos + 1, t := some (.comment m []) }
        .commentSt := by
  have hs : stepState .commentSt (track { p with input := rest } m) m =
      ({ p with input := rest, pos := p.pos + 1, t := some (.comment m []) },
        false, .next .commentSt) := by
    simp [stepState, Parser.commentState, track, hm, ht]
  rw [nextLoop_cons_next p .commentSt m rest h _ _ hs]
  simp [heof]

/-- State `comment` consumes the text up to a newline and completes the
comment token. -/
theorem run_comment_nl (txt : List Char) : ∀ (p : Parser) (rest : List Char),
    p.eof = false → (∃ tok, p.t = some tok) →
    (∀ c ∈ txt, c ≠ '\n') →
    p.input = txt ++ '\n' :: rest →
    p.nextLoop .commentSt =
      ({ p with
        input := rest, line := p.line + 1, pos := 0,
        buf := p.buf ++ txt, t := setCommentText p.t (p.buf ++ txt) }, none) := by
  induction txt with
  | nil =>
    intro p rest heof hex htxt hin
    obtain ⟨tok, ht⟩ := hex
    have hs : stepState .commentSt (track { p with input := rest } '\n') '\n' =
        ({ p with
            input := rest, line := p.line + 1, pos := 0,
            t := setCommentText p.t p.buf }, false, .done) := by
      simp [stepState, Parser.commentState, track, ht]
    rw [nextLoop_cons_done p .commentSt '\n' rest (by simpa using hin) _ _ hs]
    simp
  | cons a txt ih =>
    intro p rest heof hex htxt hin
    obtain ⟨tok, ht⟩ := hex
    have ha : a ≠ '\n' := htxt a (by simp)
    have hs : stepState .commentSt (track { p with input := txt ++ '\n' :: rest } a) a =
        ({ p with
            input := txt ++ '\n' :: rest, pos := p.pos + 1,
            buf := p.buf ++ [a] }, false, .next .commentSt) := by
      simp [stepState, Parser.commentState, track, ha, ht]
    rw [nextLoop_cons_next p .commentSt a _ (by simpa using hin) _ _ hs]
    rw [if_neg (by simp [heof])]
    rw [ih
        { p with
          input := txt ++ '\n' :: rest, pos := p.pos + 1, buf := p.buf ++ [a] }
        rest heof ⟨tok, ht⟩ (fun c hc => htxt c (by simp [hc])) rfl]
    simp

/-- State `comment` completes the comment token at end of input via the
synthetic newline, setting the `eof` flag. -/
theorem run_comment_eof (txt : List Char) : ∀ (p : Parser),
    p.eof = false → (∃ tok, p.t = some tok) →
    (∀ c ∈ txt, c ≠ '\n') →
    p.input = txt →
    p.nextLoop .commentSt =
      ({ p with
        input := [], eof := true, line := p.line + 1, pos := 0,
        buf := p.buf ++ txt, t := setCommentText p.t (p.buf ++ txt) }, none) := by
  induction txt with
  | nil =>
    intro p heof hex htxt hin
    obtain ⟨tok, ht⟩ := hex
    rw [nextLoop_nil p .commentSt hin]
    have hs : stepState .commentSt (track { p with eof := true } '\n') '\n' =
        ({ p with
            eof := true, line := p.line + 1, pos := 0,
            t := setCommentText p.t p.buf }, false, .done) := by
      simp [stepState, Parser.commentState, track, ht]
    rw [hs]
    simp [hin]
  | cons a txt ih =>
    intro p heof hex htxt hin
    obtain ⟨tok, ht⟩ := hex
    have ha : a ≠ '\n' := htxt a (by simp)
    have hs : stepState .commentSt (track { p with input := txt } a) a =
        ({ p with
            input := txt, pos := p.pos + 1,
            buf := p.buf ++ [a] }, false, .next .commentSt) := by
      simp [stepState, Parser.commentState, track, ha, ht]
    rw [nextLoop_cons_next p .commentSt a _ (by simpa using hin) _ _ hs]
    rw [if_neg (by simp [heof])]
    rw [ih { p with input := txt, pos := p.pos + 1, buf := p.buf ++ [a] }
        heof ⟨tok, ht⟩ (fun c hc => htxt c (by simp [hc])) rfl]
    simp

/-- State `section` consumes the name and the section-end rune and
completes the section token. -/
theorem run_section (nm : List Char) : ∀ (p : Parser) (rest : List Char),
    p.eof = false → p.SectionEnd ≠ p.SectionStart →
    (∀ c ∈ nm,
      c ≠ p.SectionStart ∧ c ≠ p.SectionEnd ∧ p.Comments.contains c = false) →
    p.input = nm ++ p.SectionEnd :: rest →
    ∃ ln ps, p.nextLoop .sectionSt =
      ({ p with
        input := rest, line := ln, pos := ps, buf := p.buf ++ nm,
        t := some (.sec p.SectionStart p.SectionEnd (p.buf ++ nm)) }, none) := by
  induction nm with
  | nil =>
    intro p rest heof hse hnm hin
    by_cases hnl : p.SectionEnd = '\n'
    · refine ⟨p.line + 1, 0, ?_⟩
      have h1 : ¬ ('\n' : Char) = p.SectionStart := by rw [← hnl]; exact hse
      have hs : stepState .sectionSt (track { p with input := rest } p.SectionEnd)
            p.SectionEnd =
          ({ p with
              input := rest, line := p.line + 1, pos := 0,
              t := some (.sec p.SectionStart p.SectionEnd p.buf) }, false, .done) := by
        simp [stepState, Parser.sectionState, track, hse, hnl, h1]
      rw [nextLoop_cons_done p .sectionSt p.SectionEnd rest (by simpa using hin) _ _ hs]
      simp
    · refine ⟨p.line, p.pos + 1, ?_⟩
      have hs : stepState .sectionSt (track { p with input := rest } p.SectionEnd)
            p.SectionEnd =
          ({ p with
              input := rest, pos := p.pos + 1,
              t := some (.sec p.SectionStart p.SectionEnd p.buf) }, false, .done) := by
        simp [stepState, Parser.sectionState, track, hse, hnl]
      rw [nextLoop_cons_done p .sectionSt p.SectionEnd rest (by simpa using hin) _ _ hs]
      simp
  | cons a nm ih =>
    intro p rest heof hse hnm hin
    obtain ⟨ha1, ha2, ha3⟩ := hnm a (by simp)
    have ha3' : a ∉ p.Comments := by simpa using ha3
    by_cases hanl : a = '\n'
    · subst hanl
      have hs : stepState .sectionSt (track { p with input := nm ++ p.SectionEnd :: rest } '\n') '\n' =
          ({ p with
              input := nm ++ p.SectionEnd :: rest, line := p.line + 1, pos := 0,
              buf := p.buf ++ ['\n'] }, false, .next .sectionSt) := by
        simp [stepState, Parser.sectionState, track, ha1, ha2, ha3']
      rw [nextLoop_cons_next p .sectionSt '\n' _ (by simpa using hin) _ _ hs]
      rw [if_neg (by simp [heof])]
      obtain ⟨ln, ps, hlp⟩ := ih
        { p with
          input := nm ++ p.SectionEnd :: rest, line := p.line + 1, pos := 0,
          buf := p.buf ++ ['\n'] }
        rest heof hse (fun c hc => hnm c (by simp [hc])) rfl
      refine ⟨ln, ps, ?_⟩
      rw [hlp]
      simp
    · have hs : stepState .sectionSt (track { p with input := nm ++ p.SectionEnd :: rest } a) a =
          ({ p with
              input := nm ++ p.SectionEnd :: rest, pos := p.pos + 1,
              buf := p.buf ++ [a] }, false, .next .sectionSt) := by
        simp [stepState, Parser.sectionState, track, ha1, ha2, ha3', hanl]
      rw [nextLoop_cons_next p .sectionSt a _ (by simpa using hin) _ _ hs]
      rw [if_neg (by simp [heof])]
      obtain ⟨ln, ps, hlp⟩ := ih
        { p with
          input := nm ++ p.SectionEnd :: rest, pos := p.pos + 1,
          buf := p.buf ++ [a] }
        rest heof hse (fun c hc => hnm c (by simp [hc])) rfl
      refine ⟨ln, ps, ?_⟩
      rw [hlp]
      simp

/-- A call to `Next` with the input exhausted but `eof` not yet set: the
synthetic newline runs through `start`/`whitespace`, no token is
produced, and `io.EOF` is returned with the `eof` flag now set. -/
theorem next_empty (p : Parser) (h : p.input = []) (heof : p.eof = false) :
    p.Next =
      ({ p with
        eof := true, line := p.line + 1, pos := 0, buf := [], t := none },
        none, some .eofErr) := by
  unfold Parser.Next
  rw [if_neg (by simp [heof])]
  have hloop : Parser.nextLoop { p with t := none } .start =
      ({ p with
        eof := true, line := p.line + 1, pos := 0, buf := [], t := none },
        none) := by
    rw [nextLoop_nil _ _ (by simp [h])]
    have hs : stepState .start
          (track { ({ p with t := none } : Parser) with eof := true } '\n') '\n' =
        ({ p with
            eof := true, line := p.line + 1, pos := 0, buf := [], t := none },
          false, .next .whitespace) := by
      simp [stepState, Parser.startState, track, unicodeIsSpace]
    rw [hs]
  rw [hloop]
  simp

/-- Packaging of `Next` around a run of the loop that produced a token. -/
theorem next_of_loop_tok (p P' : Parser) (tok : Token) (heof : p.eof = false)
    (hloop : Parser.nextLoop { p with t := none } .start = (P', none))
    (ht : P'.t = some tok) : p.Next = (P', some tok, none) := by
  unfold Parser.Next
  rw [if_neg (by simp [heof]), hloop]
  simp [ht]

/-- Packaging of `Next` around a run of the loop that raised an error. -/
theorem next_of_loop_err (p P' : Parser) (e : ParseError) (heof : p.eof = false)
    (hloop : Parser.nextLoop { p with t := none } .start = (P', some e)) :
    p.Next = (P', none, some (.perr e)) := by
  unfold Parser.Next
  rw [if_neg (by simp [heof]), hloop]

/-- The default comment set contains nothing but `#` and `;`. -/
theorem default_contains_false {c : Char} (h1 : c ≠ '#') (h2 : c ≠ ';') :
    (['#', ';'] : List Char).contains c = false := by
  simp [h1, h2]

/-- Under the default configuration, the machine turns the prefix
`key ++ '=' ` of the input into a setting token under construction and
hands over to state `right`. -/
theorem loop_setting_to_right (key tail : List Char) (p : Parser)
    (hd : defaultCfg p) (heof : p.eof = false)
    (hk : ∀ c ∈ key, goodChar c)
    (hhead : ∀ c, key.head? = some c → unicodeIsSpace c = false)
    (hin : p.input = key ++ '=' :: tail) :
    ∃ ps, p.nextLoop .start =
      Parser.nextLoop
        { p with
          input := tail, pos := ps, buf := [],
          t := some (.setting '=' key []) } .rightSt := by
  obtain ⟨hcmt, hss, hse, heq⟩ := hd
  have hentry : p.nextLoop .start =
      Parser.nextLoop
        { p with
          input := key ++ '=' :: tail, buf := [], pos := p.pos + 1 } .leftSt := by
    cases key with
    | nil =>
      have h := start_to_left p '=' tail (by simpa using hin) heof (by decide)
        (by rw [hss]; decide) (by rw [hcmt]; decide)
      simpa using h
    | cons a k =>
      obtain ⟨g1, g2, g3, g4, g5, g6⟩ := hk a (by simp)
      have h := start_to_left p a (k ++ '=' :: tail) (by simpa using hin) heof
        (hhead a (by simp)) (by rw [hss]; exact g5)
        (by rw [hcmt]; exact default_contains_false g3 g4)
      simpa using h
  rw [hentry]
  have hk' : ∀ c ∈ key, c ≠ '\n' ∧
      c ≠ ({ p with
        input := key ++ '=' :: tail, buf := [], pos := p.pos + 1 } : Parser).Equals ∧
      ({ p with
        input := key ++ '=' :: tail, buf := [], pos := p.pos + 1 } : Parser).Comments.contains c = false := by
    intro c hc
    obtain ⟨g1, g2, g3, g4, g5, g6⟩ := hk c hc
    refine ⟨g1, ?_, ?_⟩
    · show c ≠ p.Equals
      rw [heq]; exact g2
    · show p.Comments.contains c = false
      rw [hcmt]; exact default_contains_false g3 g4
  obtain ⟨ps, hps⟩ := run_left key
    { p with input := key ++ '=' :: tail, buf := [], pos := p.pos + 1 }
    tail heof (by show p.Equals ≠ '\n'; rw [heq]; decide) hk'
    (by show key ++ '=' :: tail = key ++ p.Equals :: tail; rw [heq])
  refine ⟨ps, ?_⟩
  rw [hps]
  simp [heq]

/-- Under the default configuration, a full `key=value\n` line produces
the setting token `key=value` and consumes through the newline. -/
theorem loop_setting_nl (key value rest : List Char) (p : Parser)
    (hd : defaultCfg p) (heof : p.eof = false)
    (hk : ∀ c ∈ key, goodChar c) (hv : ∀ c ∈ value, goodChar c)
    (hhead : ∀ c, key.head? = some c → unicodeIsSpace c = false)
    (hin : p.input = key ++ '=' :: value ++ '\n' :: rest) :
    p.nextLoop .start =
      ({ p with
        input := rest, line := p.line + 1, pos := 0, buf := value,
        t := some (.setting '=' key value) }, none) := by
  obtain ⟨ps, h1⟩ :=
    loop_setting_to_right key (value ++ '\n' :: rest) p hd heof hk hhead
      (by rw [hin]; simp)
  rw [h1]
  have hv' : ∀ c ∈ value, c ≠ '\n' ∧
      ({ p with
        input := value ++ '\n' :: rest, pos := ps, buf := [],
        t := some (.setting '=' key []) } : Parser).Comments.contains c = false := by
    intro c hc
    obtain ⟨g1, g2, g3, g4, g5, g6⟩ := hv c hc
    refine ⟨g1, ?_⟩
    show p.Comments.contains c = false
    rw [hd.1]; exact default_contains_false g3 g4
  rw [run_right_nl value
    { p with
      input := value ++ '\n' :: rest, pos := ps, buf := [],
      t := some (.setting '=' key []) }
    rest heof hv' rfl]
  simp [setRight]

/-- Under the default configuration, a final `key=value` line without a
trailing newline still produces the setting token; the `eof` flag is set. -/
theorem loop_setting_eof (key value : List Char) (p : Parser)
    (hd : defaultCfg p) (heof : p.eof = false)
    (hk : ∀ c ∈ key, goodChar c) (hv : ∀ c ∈ value, goodChar c)
    (hhead : ∀ c, key.head? = some c → unicodeIsSpace c = false)
    (hin : p.input = key ++ '=' :: value) :
    p.nextLoop .start =
      ({ p with
        input := [], eof := true, line := p.line + 1, pos := 0, buf := value,
        t := some (.setting '=' key value) }, none) := by
  obtain ⟨ps, h1⟩ := loop_setting_to_right key value p hd heof hk hhead hin
  rw [h1]
  have hv' : ∀ c ∈ value, c ≠ '\n' ∧
      ({ p with
        input := value, pos := ps, buf := [],
        t := some (.setting '=' key []) } : Parser).Comments.contains c = false := by
    intro c hc
    obtain ⟨g1, g2, g3, g4, g5, g6⟩ := hv c hc
    refine ⟨g1, ?_⟩
    show p.Comments.contains c = false
    rw [hd.1]; exact default_contains_false g3 g4
  rw [run_right_eof value
    { p with
      input := value, pos := ps, buf := [], t := some (.setting '=' key []) }
    heof hv' rfl]
  simp [setRight]

/-- Under the default configuration, a `key=value` whose value is cut
short by a comment marker produces the setting token and leaves the
marker unconsumed at the head of the input. -/
theorem loop_setting_pb (key value : List Char) (m : Char) (rest : List Char)
    (p : Parser)
    (hd : defaultCfg p) (heof : p.eof = false)
    (hm : m = '#' ∨ m = ';')
    (hk : ∀ c ∈ key, goodChar c) (hv : ∀ c ∈ value, goodChar c)
    (hhead : ∀ c, key.head? = some c → unicodeIsSpace c = false)
    (hin : p.input = key ++ '=' :: value ++ m :: rest) :
    ∃ ps, p.nextLoop .start =
      ({ p with
        input := m :: rest, pos := ps, buf := value,
        t := some (.setting '=' key value) }, none) := by
  obtain ⟨ps, h1⟩ :=
    loop_setting_to_right key (value ++ m :: rest) p hd heof hk hhead
      (by rw [hin]; simp)
  rw [h1]
  have hv' : ∀ c ∈ value, c ≠ '\n' ∧
      ({ p with
        input := value ++ m :: rest, pos := ps, buf := [],
        t := some (.setting '=' key []) } : Parser).Comments.contains c = false := by
    intro c hc
    obtain ⟨g1, g2, g3, g4, g5, g6⟩ := hv c hc
    refine ⟨g1, ?_⟩
    show p.Comments.contains c = false
    rw [hd.1]; exact default_contains_false g3 g4
  obtain ⟨ps2, h2⟩ := run_right_pb value
    { p with
      input := value ++ m :: rest, pos := ps, buf := [],
      t := some (.setting '=' key []) }
    m rest heof (by rcases hm with h | h <;> subst h <;> decide)
    (by show p.Comments.contains m = true
        rw [hd.1]; rcases hm with h | h <;> subst h <;> decide)
    hv' rfl
  refine ⟨ps2, ?_⟩
  rw [h2]
  simp [setRight]

/-! ## Claim C3: well-formed single-line settings -/

/-- C3: for every well-formed single-line input `key=value\n` — key and
value free of newline, separator, comment-marker and section-delimiter
characters, key not beginning with whitespace — the first call to `Next`
returns exactly the setting token `key=value`, and the next call returns
end-of-stream. -/
theorem C3_single_setting (key value : List Char)
    (hk : ∀ c ∈ key, goodChar c) (hv : ∀ c ∈ value, goodChar c)
    (hhead : ∀ c, key.head? = some c → unicodeIsSpace c = false) :
    (NewParser (key ++ '=' :: value ++ ['\n'])).Next.2 =
        (some (.setting '=' key value), none) ∧
      (NewParser (key ++ '=' :: value ++ ['\n'])).Next.1.Next.2 =
        (none, some .eofErr) := by
  have hloop := loop_setting_nl key value [] (NewParser (key ++ '=' :: value ++ ['\n']))
    ⟨rfl, rfl, rfl, rfl⟩ rfl hk hv hhead rfl
  have hN := next_of_loop_tok (NewParser (key ++ '=' :: value ++ ['\n'])) _
    (.setting '=' key value) rfl hloop rfl
  rw [hN]
  refine ⟨rfl, ?_⟩
  rw [next_empty _ rfl rfl]

/-- Witness for `C3_single_setting` at `key=value\n`. -/
theorem C3_single_setting_witness :
    (NewParser ("key".toList ++ '=' :: "value".toList ++ ['\n'])).Next.2 =
        (some (.setting '=' "key".toList "value".toList), none) ∧
      (NewParser ("key".toList ++ '=' :: "value".toList ++ ['\n'])).Next.1.Next.2 =
        (none, some .eofErr) :=
  C3_single_setting "key".toList "value".toList (by decide) (by decide)
    (by decide)

/-! ## Claim C4: a value cut short by a comment marker -/

/-- C4: when the value portion of a setting line is directly followed by a
configured comment marker, the call to `Next` that builds the setting
returns a setting token whose right-hand side excludes the marker and
everything after it, the marker is not consumed (it is still the head of
the remaining input), and the immediately following call returns the
comment token for the remainder of the line. -/
theorem C4_value_comment_split (key value : List Char) (m : Char)
    (txt rest : List Char)
    (hm : m = '#' ∨ m = ';')
    (hk : ∀ c ∈ key, goodChar c) (hv : ∀ c ∈ value, goodChar c)
    (hhead : ∀ c, key.head? = some c → unicodeIsSpace c = false)
    (htxt : ∀ c ∈ txt, c ≠ '\n') :
    (NewParser (key ++ '=' :: value ++ m :: txt ++ '\n' :: rest)).Next.2 =
        (some (.setting '=' key value), none) ∧
      (NewParser (key ++ '=' :: value ++ m :: txt ++ '\n' :: rest)).Next.1.input =
        m :: txt ++ '\n' :: rest ∧
      (NewParser (key ++ '=' :: value ++ m :: txt ++ '\n' :: rest)).Next.1.Next.2 =
        (some (.comment m txt), none) := by
  have hmsp : unicodeIsSpace m = false := by
    rcases hm with h | h <;> subst h <;> decide
  have hmne : m ≠ '\n' := by
    rcases hm with h | h <;> subst h <;> decide
  obtain ⟨ps, hloop⟩ := loop_setting_pb key value m (txt ++ '\n' :: rest)
    (NewParser (key ++ '=' :: value ++ m :: txt ++ '\n' :: rest))
    ⟨rfl, rfl, rfl, rfl⟩ rfl hm hk hv hhead (by simp [NewParser])
  have hN1 := next_of_loop_tok
    (NewParser (key ++ '=' :: value ++ m :: txt ++ '\n' :: rest)) _
    (.setting '=' key value) rfl hloop rfl
  rw [hN1]
  have hloop2 : Parser.nextLoop
      ({ NewParser (key ++ '=' :: value ++ m :: txt ++ '\n' :: rest) with
        input := m :: (txt ++ '\n' :: rest), pos := ps, buf := value,
        t := none } : Parser) .start =
      (({ NewParser (key ++ '=' :: value ++ m :: txt ++ '\n' :: rest) with
        input := rest, line := 1, pos := 0, buf := txt,
        t := some (.comment m txt) } : Parser), none) := by
    rw [start_to_comment _ m (txt ++ '\n' :: rest) rfl rfl hmsp
      (by show m ≠ '['; rcases hm with h | h <;> subst h <;> decide)
      (by show (['#', ';'] : List Char).contains m = true
          rcases hm with h | h <;> subst h <;> decide)]
    rw [comment_create _ m (txt ++ '\n' :: rest) rfl rfl rfl hmne]
    rw [run_comment_nl txt _ rest rfl ⟨.comment m [], rfl⟩ htxt rfl]
    simp [setCommentText, NewParser]
  have hN2 := next_of_loop_tok
    ({ NewParser (key ++ '=' :: value ++ m :: txt ++ '\n' :: rest) with
      input := m :: (txt ++ '\n' :: rest), pos := ps, buf := value,
      t := some (.setting '=' key value) } : Parser) _ (.comment m txt) rfl
    hloop2 rfl
  rw [hN2]
  exact ⟨rfl, by simp, rfl⟩

/-- Witness for `C4_value_comment_split` at `k=v#txt\n`. -/
theorem C4_value_comment_split_witness :
    (NewParser ("k".toList ++ '=' :: "v".toList ++ '#' :: "txt".toList ++ '\n' :: [])).Next.2 =
        (some (.setting '=' "k".toList "v".toList), none) ∧
      (NewParser ("k".toList ++ '=' :: "v".toList ++ '#' :: "txt".toList ++ '\n' :: [])).Next.1.input =
        '#' :: "txt".toList ++ '\n' :: [] ∧
      (NewParser ("k".toList ++ '=' :: "v".toList ++ '#' :: "txt".toList ++ '\n' :: [])).Next.1.Next.2 =
        (some (.comment '#' "txt".toList), none) :=
  C4_value_comment_split "k".toList "v".toList '#' "txt".toList []
    (Or.inl rfl) (by decide) (by decide) (by decide) (by decide)

/-! ## Claim C7: end of input feeds a synthetic newline -/

/-- C7: when the source is exhausted a synthetic newline is fed into the
active state, so an in-progress setting (input `key=value` without a
trailing newline) or comment (input `#txt` without a trailing newline)
still completes and is returned; once `eof` is set every call answers
`io.EOF` again; and when exhaustion produces no token (empty remaining
input), `Next` reports `io.EOF` rather than an empty token. -/
theorem C7_eof_synthetic_newline :
    (∀ p : Parser, p.eof = true → p.Next = (p, none, some .eofErr)) ∧
      (∀ key value : List Char,
        (∀ c ∈ key, goodChar c) → (∀ c ∈ value, goodChar c) →
        (∀ c, key.head? = some c → unicodeIsSpace c = false) →
        (NewParser (key ++ '=' :: value)).Next.2 =
            (some (.setting '=' key value), none) ∧
          (NewParser (key ++ '=' :: value)).Next.1.Next.2 =
            (none, some .eofErr)) ∧
      (∀ (m : Char) (txt : List Char), (m = '#' ∨ m = ';') →
        (∀ c ∈ txt, c ≠ '\n') →
        (NewParser (m :: txt)).Next.2 = (some (.comment m txt), none)) ∧
      (∀ p : Parser, p.input = [] → p.eof = false →
        p.Next.2 = (none, some .eofErr)) := by
  refine ⟨?_, ?_, ?_, ?_⟩
  · intro p hp
    simp [Parser.Next, hp]
  · intro key value hk hv hhead
    have hloop := loop_setting_eof key value (NewParser (key ++ '=' :: value))
      ⟨rfl, rfl, rfl, rfl⟩ rfl hk hv hhead rfl
    have hN := next_of_loop_tok (NewParser (key ++ '=' :: value)) _
      (.setting '=' key value) rfl hloop rfl
    rw [hN]
    refine ⟨rfl, ?_⟩
    simp [Parser.Next]
  · intro m txt hm htxt
    have hmsp : unicodeIsSpace m = false := by
      rcases hm with h | h <;> subst h <;> decide
    have hmne : m ≠ '\n' := by
      rcases hm with h | h <;> subst h <;> decide
    have hloop : Parser.nextLoop
        ({ NewParser (m :: txt) with t := none } : Parser) .start =
        (({ NewParser (m :: txt) with
          input := [], eof := true, line := 1, pos := 0, buf := txt,
          t := some (.comment m txt) } : Parser), none) := by
      rw [start_to_comment _ m txt rfl rfl hmsp
        (by show m ≠ '['; rcases hm with h | h <;> subst h <;> decide)
        (by show (['#', ';'] : List Char).contains m = true
            rcases hm with h | h <;> subst h <;> decide)]
      rw [comment_create _ m txt rfl rfl rfl hmne]
      rw [run_comment_eof txt _ rfl ⟨.comment m [], rfl⟩ htxt rfl]
      simp [setCommentText, NewParser]
    have hN := next_of_loop_tok (NewParser (m :: txt)) _ (.comment m txt) rfl
      hloop rfl
    rw [hN]
  · intro p h heof
    rw [next_empty p h heof]

/-- Witness for `C7_eof_synthetic_newline`: a parser with `eof` set keeps
answering `io.EOF`; `k=v` without trailing newline yields the setting
`k=v` and then `io.EOF`; `#done` without trailing newline yields the
comment; the empty input yields `io.EOF`. -/
theorem C7_eof_synthetic_newline_witness :
    ({ NewParser [] with eof := true } : Parser).Next =
        ({ NewParser [] with eof := true }, none, some .eofErr) ∧
      (NewParser ("k".toList ++ '=' :: "v".toList)).Next.2 =
        (some (.setting '=' "k".toList "v".toList), none) ∧
      (NewParser ('#' :: "done".toList)).Next.2 =
        (some (.comment '#' "done".toList), none) ∧
      (NewParser []).Next.2 = (none, some .eofErr) :=
  ⟨C7_eof_synthetic_newline.1 _ rfl,
    (C7_eof_synthetic_newline.2.1 "k".toList "v".toList (by decide) (by decide)
      (by decide)).1,
    C7_eof_synthetic_newline.2.2.1 '#' "done".toList (Or.inl rfl) (by decide),
    C7_eof_synthetic_newline.2.2.2 (NewParser []) rfl rfl⟩

/-! ## Projections of `track` -/

theorem track_Comments (p : Parser) (r : Char) :
    (track p r).Comments = p.Comments := by unfold track; split <;> rfl

theorem track_SectionStart (p : Parser) (r : Char) :
    (track p r).SectionStart = p.SectionStart := by unfold track; split <;> rfl

theorem track_SectionEnd (p : Parser) (r : Char) :
    (track p r).SectionEnd = p.SectionEnd := by unfold track; split <;> rfl

theorem track_Equals (p : Parser) (r : Char) :
    (track p r).Equals = p.Equals := by unfold track; split <;> rfl

theorem track_buf (p : Parser) (r : Char) :
    (track p r).buf = p.buf := by unfold track; split <;> rfl

theorem track_t (p : Parser) (r : Char) :
    (track p r).t = p.t := by unfold track; split <;> rfl

/-- `TokOK` only looks at the four configuration fields. -/
theorem TokOK_cfg {p q : Parser} (h1 : q.Comments = p.Comments)
    (h2 : q.SectionStart = p.SectionStart) (h3 : q.SectionEnd = p.SectionEnd)
    (h4 : q.Equals = p.Equals) (tok : Token) (h : TokOK q tok) :
    TokOK p tok := by
  cases tok <;> simp only [TokOK, startCharOK, h1, h2, h3, h4] at h ⊢ <;>
    exact h

/-- Main invariant of the loop: when the loop of `Next` stops without an
error, every token it has deposited satisfies `TokOK` for the active
configuration, and if the input was not exhausted a token was deposited. -/
theorem nextLoop_inv : ∀ (n : Nat) (p : Parser) (s : PState),
    4 * p.input.length + rank s ≤ n → Inv s p →
    (p.nextLoop s).2 = none →
    (∀ tok, (p.nextLoop s).1.t = some tok → TokOK p tok) ∧
      ((p.nextLoop s).1.eof = false → (p.nextLoop s).1.t ≠ none) := by
  intro n
  induction n using Nat.strong_induction_on with
  | _ n IH =>
  intro p s hn hInv
  have hIH : ∀ (p3 : Parser) (s2 : PState),
      4 * p3.input.length + rank s2 < n → Inv s2 p3 →
      (p3.nextLoop s2).2 = none →
      (∀ tok, (p3.nextLoop s2).1.t = some tok → TokOK p3 tok) ∧
        ((p3.nextLoop s2).1.eof = false → (p3.nextLoop s2).1.t ≠ none) :=
    fun p3 s2 h h2 => IH _ h p3 s2 (le_refl _) h2
  rcases hin : p.input with _ | ⟨c, cs⟩
  -- end of input: the synthetic newline
  · have htr : track ({ p with eof := true } : Parser) '\n' =
        { p with eof := true, line := p.line + 1, pos := 0 } := by
      simp [track]
    rw [nextLoop_nil p s hin, htr]
    cases s
    case start =>
      have ht : p.t = none := hInv
      have hs : stepState .start
          ({ p with eof := true, line := p.line + 1, pos := 0 } : Parser) '\n' =
          ({ p with eof := true, line := p.line + 1, pos := 0, buf := [] },
            false, .next .whitespace) := by
        simp [stepState, Parser.startState, unicodeIsSpace]
      rw [hs]
      intro _
      refine ⟨fun tok htok => ?_, fun hfalse => ?_⟩
      · simp [ht] at htok
      · simp at hfalse
    case whitespace =>
      have ht : p.t = none := hInv
      by_cases hcm : p.Comments.contains '\n' = true
      · have hcm' : ('\n' : Char) ∈ p.Comments := by simpa using hcm
        have hs : stepState .whitespace
            ({ p with eof := true, line := p.line + 1, pos := 0 } : Parser) '\n' =
            ({ p with eof := true, line := p.line + 1, pos := 0 },
              true, .next .commentSt) := by
          simp [stepState, Parser.whitespaceState, hcm']
        rw [hs]
        intro _
        refine ⟨fun tok htok => ?_, fun hfalse => ?_⟩
        · simp [ht] at htok
        · simp at hfalse
      · have hcm' : ('\n' : Char) ∉ p.Comments := by simpa using hcm
        have hs : stepState .whitespace
            ({ p with eof := true, line := p.line + 1, pos := 0 } : Parser) '\n' =
            ({ p with eof := true, line := p.line + 1, pos := 0 },
              false, .next .whitespace) := by
          simp [stepState, Parser.whitespaceState, hcm', unicodeIsSpace]
        rw [hs]
        intro _
        refine ⟨fun tok htok => ?_, fun hfalse => ?_⟩
        · simp [ht] at htok
        · simp at hfalse
    case sectionSt =>
      obtain ⟨ht, hsps, hbuf⟩ := hInv
      have hnss : ¬ (('\n' : Char) = p.SectionStart) := by
        intro h
        rw [← h] at hsps
        simp [unicodeIsSpace] at hsps
      by_cases hse : ('\n' : Char) = p.SectionEnd
      · have hs : stepState .sectionSt
            ({ p with eof := true, line := p.line + 1, pos := 0 } : Parser) '\n' =
            ({ p with
              eof := true, line := p.line + 1, pos := 0,
              t := some (.sec p.SectionStart p.SectionEnd p.buf) },
              false, .done) := by
          simp only [stepState, Parser.sectionState]
          rw [if_neg hnss, if_pos hse]
        rw [hs]
        intro _
        refine ⟨fun tok htok => ?_, fun hfalse => ?_⟩
        · simp at htok
          subst htok
          exact ⟨rfl, rfl, by rw [← hse]; exact fun h => hnss h.symm, hsps, hbuf⟩
        · simp at hfalse
      · by_cases hcm : p.Comments.contains '\n' = true
        · have hcm' : ('\n' : Char) ∈ p.Comments := by simpa using hcm
          have hs : stepState .sectionSt
              ({ p with eof := true, line := p.line + 1, pos := 0 } : Parser) '\n' =
              ({ p with eof := true, line := p.line + 1, pos := 0 }, false,
                .error (Parser.parseError
                  { p with eof := true, line := p.line + 1, pos := 0 }
                  ("Unexpected rune: " ++ String.mk ['\n']))) := by
            simp [stepState, Parser.sectionState, hnss, hse, hcm']
          rw [hs]
          intro h0
          simp at h0
        · have hcm' : ('\n' : Char) ∉ p.Comments := by simpa using hcm
          have hs : stepState .sectionSt
              ({ p with eof := true, line := p.line + 1, pos := 0 } : Parser) '\n' =
              ({ p with
                eof := true, line := p.line + 1, pos := 0,
                buf := p.buf ++ ['\n'] }, false, .next .sectionSt) := by
            simp [stepState, Parser.sectionState, hnss, hse, hcm']
          rw [hs]
          intro _
          refine ⟨fun tok htok => ?_, fun hfalse => ?_⟩
          · simp [ht] at htok
          · simp at hfalse
    case commentSt =>
      obtain ⟨hne, hsome⟩ := hInv
      rcases htp : p.t with _ | tok
      · obtain ⟨c, cs, hc, -⟩ := hne htp
        rw [hin] at hc
        simp at hc
      · obtain ⟨m, txt, htok, hcont⟩ := hsome tok htp
        subst htok
        have hs : stepState .commentSt
            ({ p with
              eof := true, line := p.line + 1, pos := 0,
              t := some (.comment m txt) } : Parser) '\n' =
            ({ p with
              eof := true, line := p.line + 1, pos := 0,
              t := some (.comment m p.buf) }, false, .done) := by
          simp [stepState, Parser.commentState, setCommentText]
        rw [hs]
        intro _
        refine ⟨fun tok2 htok2 => ?_, fun hfalse => ?_⟩
        · simp at htok2
          subst htok2
          exact hcont
        · simp at hfalse
    case leftSt =>
      have hs : stepState .leftSt
          ({ p with eof := true, line := p.line + 1, pos := 0 } : Parser) '\n' =
          ({ p with eof := true, line := p.line + 1, pos := 0 }, false,
            .error (Parser.parseError
              { p with eof := true, line := p.line + 1, pos := 0 }
              "Newline in left-hand side")) := by
        simp [stepState, Parser.leftState]
      rw [hs]
      intro h0
      simp at h0
    case rightSt =>
      obtain ⟨l, htp, hEq, hl, hhd, hbuf⟩ := hInv
      have hs : stepState .rightSt
          ({ p with eof := true, line := p.line + 1, pos := 0 } : Parser) '\n' =
          ({ p with
            eof := true, line := p.line + 1, pos := 0,
            t := setRight p.t p.buf }, false, .done) := by
        simp [stepState, Parser.rightState]
      rw [hs]
      intro _
      refine ⟨fun tok htok => ?_, fun hfalse => ?_⟩
      · rw [htp] at htok
        simp [setRight] at htok
        subst htok
        exact ⟨rfl, hEq, hl, hhd, hbuf⟩
      · simp at hfalse
  -- a real rune
  · rw [hin] at hn
    cases s
    case start =>
      have ht : p.t = none := hInv
      by_cases h1 : unicodeIsSpace c = true
      · -- whitespace
        have hs : stepState .start (track { p with input := cs } c) c =
            ({ track { p with input := cs } c with buf := [] }, false,
              .next .whitespace) := by
          simp [stepState, Parser.startState, h1]
        rw [nextLoop_cons_next p .start c cs hin _ _ hs]
        by_cases he : ({ track { p with input := cs } c with buf := [] } : Parser).eof = true
        · rw [if_pos he]
          intro _
          refine ⟨fun tok htok => ?_, fun hfalse => ?_⟩
          · simp [track_t, ht] at htok
          · simp [track_eof] at he hfalse
            exact absurd hfalse (by simp [he])
        · rw [if_neg he]
          intro h0
          obtain ⟨hA, hB⟩ := hIH _ .whitespace
            (by simp only [track_input]; simp [rank] at hn ⊢; omega)
            (by show ({ track { p with input := cs } c with buf := [] } : Parser).t = none
                simp [track_t, ht]) h0
          exact ⟨fun tok htok => TokOK_cfg (by simp [track_Comments])
            (by simp [track_SectionStart]) (by simp [track_SectionEnd])
            (by simp [track_Equals]) tok (hA tok htok), hB⟩
      · have h1' : unicodeIsSpace c = false := by simpa using h1
        have hnl : c ≠ '\n' := by
          intro h; subst h; simp [unicodeIsSpace] at h1'
        by_cases h2 : c = p.SectionStart
        · -- section
          have hA2 : c = (track { p with input := cs } c).SectionStart := by
            rw [track_SectionStart]; exact h2
          have hs : stepState .start (track { p with input := cs } c) c =
              ({ track { p with input := cs } c with buf := [] }, false,
                .next .sectionSt) := by
            simp only [stepState, Parser.startState]
            rw [if_neg h1, if_pos hA2]
          rw [nextLoop_cons_next p .start c cs hin _ _ hs]
          by_cases he : ({ track { p with input := cs } c with buf := [] } : Parser).eof = true
          · rw [if_pos he]
            intro _
            refine ⟨fun tok htok => ?_, fun hfalse => ?_⟩
            · simp [track_t, ht] at htok
            · simp [track_eof] at he hfalse
              exact absurd hfalse (by simp [he])
          · rw [if_neg he]
            intro h0
            obtain ⟨hA, hB⟩ := hIH _ .sectionSt
              (by simp only [track_input]; simp [rank] at hn ⊢; omega)
              (by refine ⟨?_, ?_, ?_⟩
                  · simp [track_t, ht]
                  · have h1s : unicodeIsSpace p.SectionStart = false := by
                      rw [← h2]; exact h1'
                    simpa [track_SectionStart] using h1s
                  · intro d hd
                    simp [track_buf] at hd) h0
            exact ⟨fun tok htok => TokOK_cfg (by simp [track_Comments])
              (by simp [track_SectionStart]) (by simp [track_SectionEnd])
              (by simp [track_Equals]) tok (hA tok htok), hB⟩
        · by_cases h3 : p.Comments.contains c = true
          · -- comment, with push-back
            have h3' : c ∈ p.Comments := by simpa using h3
            have hs : stepState .start (track { p with input := cs } c) c =
                ({ track { p with input := cs } c with buf := [] }, true,
                  .next .commentSt) := by
              simp [stepState, Parser.startState, h1', hnl, track_SectionStart,
                h2, track_Comments, h3']
            rw [nextLoop_cons_next_pb p .start c cs hin _ _ hs]
            by_cases he : ({ { track { p with input := cs } c with buf := [] }
                with input := c :: ({ track { p with input := cs } c with buf := [] } : Parser).input } : Parser).eof = true
            · rw [if_pos he]
              intro _
              refine ⟨fun tok htok => ?_, fun hfalse => ?_⟩
              · simp [track_t, ht] at htok
              · simp [track_eof] at he hfalse
                exact absurd hfalse (by simp [he])
            · rw [if_neg he]
              intro h0
              obtain ⟨hA, hB⟩ := hIH _ .commentSt
                (by simp only [track_input]; simp [rank] at hn ⊢; omega)
                (by refine ⟨fun _ => ⟨c, cs, ?_, ?_⟩, fun tok htok => ?_⟩
                    · simp [track_input]
                    · simpa [track_Comments] using h3
                    · exact absurd htok (by simp [track_t, ht])) h0
              exact ⟨fun tok htok => TokOK_cfg (by simp [track_Comments])
                (by simp [track_SectionStart]) (by simp [track_SectionEnd])
                (by simp [track_Equals]) tok (hA tok htok), hB⟩
          · -- left, with push-back
            have h3' : c ∉ p.Comments := by simpa using h3
            have h3f : p.Comments.contains c = false := by simpa using h3
            have hs : stepState .start (track { p with input := cs } c) c =
                ({ track { p with input := cs } c with buf := [] }, true,
                  .next .leftSt) := by
              simp [stepState, Parser.startState, h1', hnl, track_SectionStart,
                h2, track_Comments, h3']
            rw [nextLoop_cons_next_pb p .start c cs hin _ _ hs]
            by_cases he : ({ { track { p with input := cs } c with buf := [] }
                with input := c :: ({ track { p with input := cs } c with buf := [] } : Parser).input } : Parser).eof = true
            · rw [if_pos he]
              intro _
              refine ⟨fun tok htok => ?_, fun hfalse => ?_⟩
              · simp [track_t, ht] at htok
              · simp [track_eof] at he hfalse
                exact absurd hfalse (by simp [he])
            · rw [if_neg he]
              intro h0
              obtain ⟨hA, hB⟩ := hIH _ .leftSt
                (by simp only [track_input]; simp [rank] at hn ⊢; omega)
                (by refine ⟨?_, ?_, ?_⟩
                    · simp [track_t, ht]
                    · intro d hd
                      simp [track_buf] at hd
                    · intro d hd
                      simp [track_buf, track_input] at hd
                      subst hd
                      refine ⟨h1', ?_, ?_⟩
                      · simpa [track_SectionStart] using h2
                      · simpa [track_Comments] using h3f) h0
              exact ⟨fun tok htok => TokOK_cfg (by simp [track_Comments])
                (by simp [track_SectionStart]) (by simp [track_SectionEnd])
                (by simp [track_Equals]) tok (hA tok htok), hB⟩
    case whitespace =>
      have ht : p.t = none := hInv
      by_cases h3 : p.Comments.contains c = true
      · have h3' : c ∈ p.Comments := by simpa using h3
        have hs : stepState .whitespace (track { p with input := cs } c) c =
            (track { p with input := cs } c, true, .next .commentSt) := by
          simp [stepState, Parser.whitespaceState, track_Comments, h3']
        rw [nextLoop_cons_next_pb p .whitespace c cs hin _ _ hs]
        by_cases he : ({ track { p with input := cs } c
            with input := c :: (track { p with input := cs } c).input } : Parser).eof = true
        · rw [if_pos he]
          intro _
          refine ⟨fun tok htok => ?_, fun hfalse => ?_⟩
          · simp [track_t, ht] at htok
          · simp [track_eof] at he hfalse
            exact absurd hfalse (by simp [he])
        · rw [if_neg he]
          intro h0
          obtain ⟨hA, hB⟩ := hIH _ .commentSt
            (by simp only [track_input]; simp [rank] at hn ⊢; omega)
            (by refine ⟨fun _ => ⟨c, cs, ?_, ?_⟩, fun tok htok => ?_⟩
                · simp [track_input]
                · simpa [track_Comments] using h3
                · exact absurd htok (by simp [track_t, ht])) h0
          exact ⟨fun tok htok => TokOK_cfg (by simp [track_Comments])
            (by simp [track_SectionStart]) (by simp [track_SectionEnd])
            (by simp [track_Equals]) tok (hA tok htok), hB⟩
      · have h3' : c ∉ p.Comments := by simpa using h3
        by_cases h1 : unicodeIsSpace c = true
        · have hs : stepState .whitespace (track { p with input := cs } c) c =
              (track { p with input := cs } c, false, .next .whitespace) := by
            simp [stepState, Parser.whitespaceState, track_Comments, h3', h1]
          rw [nextLoop_cons_next p .whitespace c cs hin _ _ hs]
          by_cases he : (track { p with input := cs } c).eof = true
          · rw [if_pos he]
            intro _
            refine ⟨fun tok htok => ?_, fun hfalse => ?_⟩
            · simp [track_t, ht] at htok
            · simp [track_eof] at he hfalse
              exact absurd hfalse (by simp [he])
          · rw [if_neg he]
            intro h0
            obtain ⟨hA, hB⟩ := hIH _ .whitespace
              (by simp only [track_input]; simp [rank] at hn ⊢; omega)
              (by show (track { p with input := cs } c).t = none
                  simp [track_t, ht]) h0
            exact ⟨fun tok htok => TokOK_cfg (by simp [track_Comments])
              (by simp [track_SectionStart]) (by simp [track_SectionEnd])
              (by simp [track_Equals]) tok (hA tok htok), hB⟩
        · have hs : stepState .whitespace (track { p with input := cs } c) c =
              (track { p with input := cs } c, true, .next .start) := by
            simp [stepState, Parser.whitespaceState, track_Comments, h3', h1]
          rw [nextLoop_cons_next_pb p .whitespace c cs hin _ _ hs]
          by_cases he : ({ track { p with input := cs } c
              with input := c :: (track { p with input := cs } c).input } : Parser).eof = true
          · rw [if_pos he]
            intro _
            refine ⟨fun tok htok => ?_, fun hfalse => ?_⟩
            · simp [track_t, ht] at htok
            · simp [track_eof] at he hfalse
              exact absurd hfalse (by simp [he])
          · rw [if_neg he]
            intro h0
            obtain ⟨hA, hB⟩ := hIH _ .start
              (by simp only [track_input]; simp [rank] at hn ⊢; omega)
              (by show ({ track { p with input := cs } c
                    with input := c :: (track { p with input := cs } c).input } : Parser).t = none
                  simp [track_t, ht]) h0
            exact ⟨fun tok htok => TokOK_cfg (by simp [track_Comments])
              (by simp [track_SectionStart]) (by simp [track_SectionEnd])
              (by simp [track_Equals]) tok (hA tok htok), hB⟩
    case sectionSt =>
      obtain ⟨ht, hsps, hbuf⟩ := hInv
      by_cases h1 : c = p.SectionStart
      · have hs : stepState .sectionSt (track { p with input := cs } c) c =
            (track { p with input := cs } c, false,
              .error ((track { p with input := cs } c).parseError
                ("Unexpected rune: " ++ String.mk [c]))) := by
          simp only [stepState, Parser.sectionState, track_SectionStart]
          rw [if_pos h1]
        rw [nextLoop_cons_error p .sectionSt c cs hin _ _ _ hs]
        intro h0
        simp at h0
      · by_cases h2 : c = p.SectionEnd
        · have hB1 : ¬ (c = (track { p with input := cs } c).SectionStart) := by
            rw [track_SectionStart]; exact h1
          have hB2 : c = (track { p with input := cs } c).SectionEnd := by
            rw [track_SectionEnd]; exact h2
          have hs : stepState .sectionSt (track { p with input := cs } c) c =
              ({ track { p with input := cs } c with
                t := some (.sec p.SectionStart p.SectionEnd p.buf) }, false,
                .done) := by
            simp only [stepState, Parser.sectionState]
            rw [if_neg hB1, if_pos hB2]
            simp [track_SectionStart, track_SectionEnd, track_buf]
          rw [nextLoop_cons_done p .sectionSt c cs hin _ _ hs]
          intro _
          refine ⟨fun tok htok => ?_, fun hfalse => ?_⟩
          · simp at htok
            subst htok
            exact ⟨rfl, rfl, fun h => h1 (h2.trans h.symm), hsps, hbuf⟩
          · simp
        · by_cases h3 : p.Comments.contains c = true
          · have h3' : c ∈ p.Comments := by simpa using h3
            have hB1 : ¬ (c = (track { p with input := cs } c).SectionStart) := by
              rw [track_SectionStart]; exact h1
            have hB2 : ¬ (c = (track { p with input := cs } c).SectionEnd) := by
              rw [track_SectionEnd]; exact h2
            have hs : stepState .sectionSt (track { p with input := cs } c) c =
                (track { p with input := cs } c, false,
                  .error ((track { p with input := cs } c).parseError
                    ("Unexpected rune: " ++ String.mk [c]))) := by
              simp only [stepState, Parser.sectionState]
              rw [if_neg hB1, if_neg hB2]
              simp [track_Comments, h3']
            rw [nextLoop_cons_error p .sectionSt c cs hin _ _ _ hs]
            intro h0
            simp at h0
          · have h3' : c ∉ p.Comments := by simpa using h3
            have h3f : p.Comments.contains c = false := by simpa using h3
            have hB1 : ¬ (c = (track { p with input := cs } c).SectionStart) := by
              rw [track_SectionStart]; exact h1
            have hB2 : ¬ (c = (track { p with input := cs } c).SectionEnd) := by
              rw [track_SectionEnd]; exact h2
            have hs : stepState .sectionSt (track { p with input := cs } c) c =
                ({ track { p with input := cs } c with
                  buf := p.buf ++ [c] }, false, .next .sectionSt) := by
              simp only [stepState, Parser.sectionState]
              rw [if_neg hB1, if_neg hB2]
              simp [track_Comments, h3', track_buf]
            rw [nextLoop_cons_next p .sectionSt c cs hin _ _ hs]
            by_cases he : ({ track { p with input := cs } c with
                buf := p.buf ++ [c] } : Parser).eof = true
            · rw [if_pos he]
              intro _
              refine ⟨fun tok htok => ?_, fun hfalse => ?_⟩
              · simp [track_t, ht] at htok
              · simp [track_eof] at he hfalse
                exact absurd hfalse (by simp [he])
            · rw [if_neg he]
              intro h0
              obtain ⟨hA, hB⟩ := hIH _ .sectionSt
                (by simp only [track_input]; simp [rank] at hn ⊢; omega)
                (by refine ⟨?_, ?_, ?_⟩
                    · simp [track_t, ht]
                    · simpa [track_SectionStart] using hsps
                    · intro d hd
                      simp at hd
                      rcases hd with hd | hd2
                      · refine ⟨?_, ?_, ?_⟩
                        · simpa [track_SectionStart] using (hbuf d hd).1
                        · simpa [track_SectionEnd] using (hbuf d hd).2.1
                        · simpa [track_Comments] using (hbuf d hd).2.2
                      · rw [hd2]
                        refine ⟨?_, ?_, ?_⟩
                        · simpa [track_SectionStart] using h1
                        · simpa [track_SectionEnd] using h2
                        · simpa [track_Comments] using h3f) h0
              exact ⟨fun tok htok => TokOK_cfg (by simp [track_Comments])
                (by simp [track_SectionStart]) (by simp [track_SectionEnd])
                (by simp [track_Equals]) tok (hA tok htok), hB⟩
    case commentSt =>
      obtain ⟨hne, hsome⟩ := hInv
      rcases htp : p.t with _ | tok
      · -- create the comment token
        obtain ⟨c', cs', hc', hcont'⟩ := hne htp
        rw [hin] at hc'
        injection hc' with e1 e2
        subst e1
        have hs : stepState .commentSt (track { p with input := cs } c) c =
            ({ track { p with input := cs } c with
              t := some (.comment c []) }, false, .next .commentSt) := by
          simp [stepState, Parser.commentState, track_t, htp]
        rw [nextLoop_cons_next p .commentSt c cs hin _ _ hs]
        by_cases he : ({ track { p with input := cs } c with
            t := some (.comment c []) } : Parser).eof = true
        · rw [if_pos he]
          intro _
          refine ⟨fun tok htok => ?_, fun hfalse => ?_⟩
          · simp at htok
            subst htok
            exact hcont'
          · simp [track_eof] at he hfalse
            exact absurd hfalse (by simp [he])
        · rw [if_neg he]
          intro h0
          obtain ⟨hA, hB⟩ := hIH _ .commentSt
            (by simp only [track_input]; simp [rank] at hn ⊢; omega)
            (by refine ⟨fun h => absurd h (by simp), fun tok2 htok2 => ?_⟩
                simp at htok2
                subst htok2
                exact ⟨c, [], rfl, by simpa [track_Comments] using hcont'⟩) h0
          exact ⟨fun tok htok => TokOK_cfg (by simp [track_Comments])
            (by simp [track_SectionStart]) (by simp [track_SectionEnd])
            (by simp [track_Equals]) tok (hA tok htok), hB⟩
      · obtain ⟨m, txt, htok, hcont⟩ := hsome tok htp
        subst htok
        by_cases hc : c = '\n'
        · subst hc
          have hs : stepState .commentSt (track { p with input := cs } '\n') '\n' =
              ({ track { p with input := cs } '\n' with
                t := some (.comment m p.buf) }, false, .done) := by
            simp [stepState, Parser.commentState, track_t, track_buf, htp,
              setCommentText]
          rw [nextLoop_cons_done p .commentSt '\n' cs hin _ _ hs]
          intro _
          refine ⟨fun tok2 htok2 => ?_, fun hfalse => ?_⟩
          · simp at htok2
            subst htok2
            exact hcont
          · simp
        · have hs : stepState .commentSt (track { p with input := cs } c) c =
              ({ track { p with input := cs } c with
                buf := p.buf ++ [c] }, false, .next .commentSt) := by
            simp [stepState, Parser.commentState, track_t, track_buf, htp, hc]
          rw [nextLoop_cons_next p .commentSt c cs hin _ _ hs]
          by_cases he : ({ track { p with input := cs } c with
              buf := p.buf ++ [c] } : Parser).eof = true
          · rw [if_pos he]
            intro _
            refine ⟨fun tok2 htok2 => ?_, fun hfalse => ?_⟩
            · rw [show ({ track { p with input := cs } c with
                  buf := p.buf ++ [c] } : Parser).t = p.t by simp [track_t]] at htok2
              rw [htp] at htok2
              injection htok2 with e
              subst e
              exact hcont
            · simp [track_eof] at he hfalse
              exact absurd hfalse (by simp [he])
          · rw [if_neg he]
            intro h0
            obtain ⟨hA, hB⟩ := hIH _ .commentSt
              (by simp only [track_input]; simp [rank] at hn ⊢; omega)
              (by refine ⟨fun h => ?_, fun tok2 htok2 => ?_⟩
                  · rw [show ({ track { p with input := cs } c with
                        buf := p.buf ++ [c] } : Parser).t = p.t by simp [track_t]] at h
                    rw [htp] at h
                    cases h
                  · rw [show ({ track { p with input := cs } c with
                        buf := p.buf ++ [c] } : Parser).t = p.t by simp [track_t]] at htok2
                    rw [htp] at htok2
                    injection htok2 with e
                    subst e
                    exact ⟨m, txt, rfl, by simpa [track_Comments] using hcont⟩) h0
            exact ⟨fun tok2 htok2 => TokOK_cfg (by simp [track_Comments])
              (by simp [track_SectionStart]) (by simp [track_SectionEnd])
              (by simp [track_Equals]) tok2 (hA tok2 htok2), hB⟩
    case leftSt =>
      obtain ⟨ht, hbuf, hhd⟩ := hInv
      by_cases h1 : c = '\n'
      · subst h1
        have hs : stepState .leftSt (track { p with input := cs } '\n') '\n' =
            (track { p with input := cs } '\n', false,
              .error ((track { p with input := cs } '\n').parseError
                "Newline in left-hand side")) := by
          simp [stepState, Parser.leftState]
        rw [nextLoop_cons_error p .leftSt '\n' cs hin _ _ _ hs]
        intro h0
        simp at h0
      · by_cases h2 : c = p.Equals
        · have hB2 : c = (track { p with input := cs } c).Equals := by
            rw [track_Equals]; exact h2
          have hs : stepState .leftSt (track { p with input := cs } c) c =
              ({ track { p with input := cs } c with
                t := some (.setting c p.buf []), buf := [] }, false,
                .next .rightSt) := by
            simp only [stepState, Parser.leftState]
            rw [if_neg h1, if_pos hB2]
            simp [track_buf]
          rw [nextLoop_cons_next p .leftSt c cs hin _ _ hs]
          by_cases he : ({ track { p with input := cs } c with
              t := some (.setting c p.buf []), buf := [] } : Parser).eof = true
          · rw [if_pos he]
            intro _
            refine ⟨fun tok htok => ?_, fun hfalse => ?_⟩
            · simp at htok
              subst htok
              refine ⟨h2, h1, ?_, ?_, by simp⟩
              · intro d hd
                exact hbuf d hd
              · intro d hd
                rcases hb : p.buf with _ | ⟨a, bs⟩
                · rw [hb] at hd
                  simp at hd
                  subst hd
                  exact hhd c (by rw [hb, hin]; rfl)
                · rw [hb] at hd
                  simp at hd
                  subst hd
                  exact hhd a (by rw [hb]; rfl)
            · simp [track_eof] at he hfalse
              exact absurd hfalse (by simp [he])
          · rw [if_neg he]
            intro h0
            obtain ⟨hA, hB⟩ := hIH _ .rightSt
              (by simp only [track_input]; simp [rank] at hn ⊢; omega)
              (by refine ⟨p.buf, ?_, ?_, ?_, ?_, ?_⟩
                  · show some (Token.setting c p.buf []) =
                      some (.setting ({ track { p with input := cs } c with
                        t := some (.setting c p.buf []), buf := [] } : Parser).Equals p.buf [])
                    rw [show ({ track { p with input := cs } c with
                        t := some (.setting c p.buf []), buf := [] } : Parser).Equals
                        = p.Equals by simp [track_Equals], ← h2]
                  · show ({ track { p with input := cs } c with
                        t := some (.setting c p.buf []), buf := [] } : Parser).Equals ≠ '\n'
                    rw [show ({ track { p with input := cs } c with
                        t := some (.setting c p.buf []), buf := [] } : Parser).Equals
                        = p.Equals by simp [track_Equals], ← h2]
                    exact h1
                  · intro d hd
                    have := hbuf d hd
                    simpa [track_Equals, track_Comments] using this
                  · intro d hd
                    have hd2 : (p.buf ++ [p.Equals]).head? = some d := by
                      simpa [track_Equals] using hd
                    have hgoal : startCharOK p d := by
                      rcases hb : p.buf with _ | ⟨a, bs⟩
                      · rw [hb] at hd2
                        simp at hd2
                        subst hd2
                        have := hhd c (by rw [hb, hin]; rfl)
                        rwa [h2] at this
                      · rw [hb] at hd2
                        simp at hd2
                        subst hd2
                        exact hhd a (by rw [hb]; rfl)
                    simpa [startCharOK, track_SectionStart, track_Comments]
                      using hgoal
                  · intro d hd
                    simp at hd) h0
            exact ⟨fun tok htok => TokOK_cfg (by simp [track_Comments])
              (by simp [track_SectionStart]) (by simp [track_SectionEnd])
              (by simp [track_Equals]) tok (hA tok htok), hB⟩
        · by_cases h3 : p.Comments.contains c = true
          · have h3' : c ∈ p.Comments := by simpa using h3
            have hB2 : ¬ (c = (track { p with input := cs } c).Equals) := by
              rw [track_Equals]; exact h2
            have hs : stepState .leftSt (track { p with input := cs } c) c =
                (track { p with input := cs } c, false,
                  .error ((track { p with input := cs } c).parseError
                    ("Unexpected rune: " ++ String.mk [c]))) := by
              simp only [stepState, Parser.leftState]
              rw [if_neg h1, if_neg hB2]
              simp [track_Comments, h3']
            rw [nextLoop_cons_error p .leftSt c cs hin _ _ _ hs]
            intro h0
            simp at h0
          · have h3' : c ∉ p.Comments := by simpa using h3
            have h3f : p.Comments.contains c = false := by simpa using h3
            have hB2 : ¬ (c = (track { p with input := cs } c).Equals) := by
              rw [track_Equals]; exact h2
            have hs : stepState .leftSt (track { p with input := cs } c) c =
                ({ track { p with input := cs } c with
                  buf := p.buf ++ [c] }, false, .next .leftSt) := by
              simp only [stepState, Parser.leftState]
              rw [if_neg h1, if_neg hB2]
              simp [track_Comments, h3', track_buf]
            rw [nextLoop_cons_next p .leftSt c cs hin _ _ hs]
            by_cases he : ({ track { p with input := cs } c with
                buf := p.buf ++ [c] } : Parser).eof = true
            · rw [if_pos he]
              intro _
              refine ⟨fun tok htok => ?_, fun hfalse => ?_⟩
              · simp [track_t, ht] at htok
              · simp [track_eof] at he hfalse
                exact absurd hfalse (by simp [he])
            · rw [if_neg he]
              intro h0
              obtain ⟨hA, hB⟩ := hIH _ .leftSt
                (by simp only [track_input]; simp [rank] at hn ⊢; omega)
                (by refine ⟨?_, ?_, ?_⟩
                    · simp [track_t, ht]
                    · intro d hd
                      simp at hd
                      rcases hd with hd | hd2
                      · have := hbuf d hd
                        simpa [track_Equals, track_Comments] using this
                      · rw [hd2]
                        refine ⟨h1, ?_, ?_⟩
                        · simpa [track_Equals] using h2
                        · simpa [track_Comments] using h3f
                    · intro d hd
                      simp only [track_input, track_buf] at hd
                      have hd2 : (p.buf ++ p.input).head? = some d := by
                        rw [hin]
                        rw [show (p.buf ++ [c]) ++ cs = p.buf ++ (c :: cs) by simp]
                          at hd
                        exact hd
                      have := hhd d hd2
                      simpa [startCharOK, track_SectionStart, track_Comments]
                        using this) h0
              exact ⟨fun tok htok => TokOK_cfg (by simp [track_Comments])
                (by simp [track_SectionStart]) (by simp [track_SectionEnd])
                (by simp [track_Equals]) tok (hA tok htok), hB⟩
    case rightSt =>
      obtain ⟨l, htp, hEq, hl, hhd, hbuf⟩ := hInv
      by_cases h1 : c = '\n'
      · subst h1
        have hs : stepState .rightSt (track { p with input := cs } '\n') '\n' =
            ({ track { p with input := cs } '\n' with
              t := some (.setting p.Equals l p.buf) }, false, .done) := by
          simp [stepState, Parser.rightState, track_t, track_buf, htp, setRight]
        rw [nextLoop_cons_done p .rightSt '\n' cs hin _ _ hs]
        intro _
        refine ⟨fun tok htok => ?_, fun hfalse => ?_⟩
        · simp at htok
          subst htok
          exact ⟨rfl, hEq, hl, hhd, hbuf⟩
        · simp
      · by_cases h2 : p.Comments.contains c = true
        · have h2' : c ∈ p.Comments := by simpa using h2
          have hs : stepState .rightSt (track { p with input := cs } c) c =
              ({ track { p with input := cs } c with
                t := some (.setting p.Equals l p.buf) }, true, .done) := by
            simp only [stepState, Parser.rightState]
            rw [if_neg h1]
            simp [track_Comments, h2', track_t, track_buf, htp, setRight]
          rw [nextLoop_cons_done p .rightSt c cs hin _ _ hs]
          intro _
          refine ⟨fun tok htok => ?_, fun hfalse => ?_⟩
          · simp at htok
            subst htok
            exact ⟨rfl, hEq, hl, hhd, hbuf⟩
          · simp
        · have h2' : c ∉ p.Comments := by simpa using h2
          have hs : stepState .rightSt (track { p with input := cs } c) c =
              ({ track { p with input := cs } c with
                buf := p.buf ++ [c] }, false, .next .rightSt) := by
            simp only [stepState, Parser.rightState]
            rw [if_neg h1]
            simp [track_Comments, h2', track_buf]
          rw [nextLoop_cons_next p .rightSt c cs hin _ _ hs]
          by_cases he : ({ track { p with input := cs } c with
              buf := p.buf ++ [c] } : Parser).eof = true
          · rw [if_pos he]
            intro _
            refine ⟨fun tok htok => ?_, fun hfalse => ?_⟩
            · rw [show ({ track { p with input := cs } c with
                  buf := p.buf ++ [c] } : Parser).t = p.t by simp [track_t],
                htp] at htok
              injection htok with e
              subst e
              exact ⟨rfl, hEq, hl, hhd, by simp⟩
            · simp [track_eof] at he hfalse
              exact absurd hfalse (by simp [he])
          · rw [if_neg he]
            intro h0
            obtain ⟨hA, hB⟩ := hIH _ .rightSt
              (by simp only [track_input]; simp [rank] at hn ⊢; omega)
              (by refine ⟨l, ?_, ?_, ?_, ?_, ?_⟩
                  · rw [show ({ track { p with input := cs } c with
                        buf := p.buf ++ [c] } : Parser).t = p.t by simp [track_t],
                      htp]
                    simp [track_Equals]
                  · simpa [track_Equals] using hEq
                  · intro d hd
                    have := hl d hd
                    simpa [track_Equals, track_Comments] using this
                  · intro d hd
                    have hd2 : (l ++ [p.Equals]).head? = some d := by
                      simpa [track_Equals] using hd
                    have := hhd d hd2
                    simpa [startCharOK, track_SectionStart, track_Comments]
                      using this
                  · intro d hd
                    simp at hd
                    rcases hd with hd | hd2
                    · have := hbuf d hd
                      simpa [track_Comments] using this
                    · rw [hd2]
                      refine ⟨h1, ?_⟩
                      simpa [track_Comments] using h2') h0
            exact ⟨fun tok htok => TokOK_cfg (by simp [track_Comments])
              (by simp [track_SectionStart]) (by simp [track_SectionEnd])
              (by simp [track_Equals]) tok (hA tok htok), hB⟩

/-- `Next` when the end-of-file flag is already set. -/
theorem next_eof (p : Parser) (h : p.eof = true) :
    p.Next = (p, none, some .eofErr) := by
  unfold Parser.Next
  rw [if_pos (by simp [h])]

/-- Packaging of `Next` around a run of the loop that exhausted the input
without leaving a token behind. -/
theorem next_of_loop_exhaust (p q : Parser) (heof : p.eof = false)
    (hloop : Parser.nextLoop { p with t := none } .start = (q, none))
    (hqe : q.eof = true) (hqt : q.t = none) :
    p.Next = (q, none, some .eofErr) := by
  unfold Parser.Next
  rw [if_neg (by simp [heof]), hloop]
  simp [hqe, hqt]

/-- The loop invariant instantiated at the entry point used by `Next`:
state `start` with the token slot cleared. -/
theorem nextLoop_start_inv (p : Parser)
    (h2 : (Parser.nextLoop { p with t := none } .start).2 = none) :
    (∀ tok, (Parser.nextLoop { p with t := none } .start).1.t = some tok →
        TokOK p tok) ∧
      ((Parser.nextLoop { p with t := none } .start).1.eof = false →
        (Parser.nextLoop { p with t := none } .start).1.t ≠ none) := by
  have h := nextLoop_inv
    (4 * ({ p with t := none } : Parser).input.length + rank .start)
    { p with t := none } .start le_rfl rfl h2
  exact ⟨fun tok htok => TokOK_cfg rfl rfl rfl rfl tok (h.1 tok htok), h.2⟩

/-- Every token handed out by `Next` is well shaped for the configuration
that was active during the call. -/
theorem Next_TokOK (p P2 : Parser) (tok : Token) (heof : p.eof = false)
    (h : p.Next = (P2, some tok, none)) : TokOK p tok := by
  rcases hl : Parser.nextLoop { p with t := none } .start with ⟨q, oe⟩
  rcases oe with _ | e
  · rcases hqt : q.t with _ | tok2
    · by_cases hqe : q.eof = true
      · rw [next_of_loop_exhaust p q heof hl hqe hqt] at h
        simp at h
      · have hqe2 : q.eof = false := by simpa using hqe
        have hx := (nextLoop_start_inv p (by rw [hl])).2
        rw [hl] at hx
        exact absurd hqt (hx hqe2)
    · rw [next_of_loop_tok p q tok2 heof hl hqt] at h
      have he2 : tok2 = tok := by
        have := congrArg (fun x => x.2.1) h
        simpa using this
      subst he2
      have hx := (nextLoop_start_inv p (by rw [hl])).1
      rw [hl] at hx
      exact hx tok2 hqt
  · rw [next_of_loop_err p q e heof hl] at h
    simp at h

/-! ## Claim C10: a token and an error are mutually exclusive -/

/-- C10: every call to `Next` returns exactly one of a non-nil token and a
non-nil error: never both in the same call, and never neither. -/
theorem C10_exclusive (p : Parser) :
    (p.Next.2.1 = none ∧ p.Next.2.2 ≠ none) ∨
      (p.Next.2.1 ≠ none ∧ p.Next.2.2 = none) := by
  by_cases he : p.eof = true
  · rw [next_eof p he]
    exact Or.inl ⟨rfl, by simp⟩
  · have heof : p.eof = false := by simpa using he
    rcases hl : Parser.nextLoop { p with t := none } .start with ⟨q, oe⟩
    rcases oe with _ | e
    · rcases hqt : q.t with _ | tok
      · by_cases hqe : q.eof = true
        · rw [next_of_loop_exhaust p q heof hl hqe hqt]
          exact Or.inl ⟨rfl, by simp⟩
        · have hqe2 : q.eof = false := by simpa using hqe
          have hx := (nextLoop_start_inv p (by rw [hl])).2
          rw [hl] at hx
          exact absurd hqt (hx hqe2)
      · rw [next_of_loop_tok p q tok heof hl hqt]
        exact Or.inr ⟨by simp, rfl⟩
    · rw [next_of_loop_err p q e heof hl]
      exact Or.inl ⟨rfl, by simp⟩

/-- A full run of the loop over the text of a section token, for any
configuration: entry from `start`, then the name, then the end rune. -/
theorem loop_sec_general (q : Parser) (nm : List Char)
    (heof : q.eof = false) (hsp : unicodeIsSpace q.SectionStart = false)
    (hse : q.SectionEnd ≠ q.SectionStart)
    (hnm : ∀ c ∈ nm,
      c ≠ q.SectionStart ∧ c ≠ q.SectionEnd ∧ q.Comments.contains c = false)
    (hin : q.input = q.SectionStart :: nm ++ [q.SectionEnd])
    (hbuf : q.buf = []) :
    ∃ Q, Parser.nextLoop q .start = (Q, none) ∧
      Q.t = some (.sec q.SectionStart q.SectionEnd nm) ∧ Q.eof = q.eof := by
  have hentry := start_to_section q (nm ++ [q.SectionEnd]) (by simpa using hin)
    heof hsp
  obtain ⟨ln, ps, hrun⟩ := run_section nm
    { q with input := nm ++ [q.SectionEnd], buf := [], pos := q.pos + 1 } []
    heof hse hnm (by simp)
  refine ⟨_, hentry.trans hrun, by simp, by simp⟩

/-- A full run of the loop over the text of a setting token, for any
configuration: entry from `start`, the key, the separator, the value, and
the synthetic newline at the end of the input. -/
theorem loop_setting_general (q : Parser) (l r : List Char)
    (heof : q.eof = false) (ht : q.t = none) (hbuf : q.buf = [])
    (hEq : q.Equals ≠ '\n')
    (hl : ∀ c ∈ l, c ≠ '\n' ∧ c ≠ q.Equals ∧ q.Comments.contains c = false)
    (hhd : ∀ c, (l ++ [q.Equals]).head? = some c → startCharOK q c)
    (hr : ∀ c ∈ r, c ≠ '\n' ∧ q.Comments.contains c = false)
    (hin : q.input = l ++ q.Equals :: r) :
    ∃ Q, Parser.nextLoop q .start = (Q, none) ∧
      Q.t = some (.setting q.Equals l r) := by
  have hentry : Parser.nextLoop q .start =
      Parser.nextLoop
        { q with input := l ++ q.Equals :: r, buf := [], pos := q.pos + 1 }
        .leftSt := by
    cases l with
    | nil =>
      obtain ⟨hsp, hss, hcm⟩ := hhd q.Equals (by simp)
      exact start_to_left q q.Equals r (by simpa using hin) heof hsp hss hcm
    | cons a l2 =>
      obtain ⟨hsp, hss, hcm⟩ := hhd a (by simp)
      exact start_to_left q a (l2 ++ q.Equals :: r) (by simpa using hin) heof
        hsp hss hcm
  obtain ⟨ps, hleft⟩ := run_left l
    { q with input := l ++ q.Equals :: r, buf := [], pos := q.pos + 1 } r
    heof hEq hl rfl
  have hright := run_right_eof r
    { { q with input := l ++ q.Equals :: r, buf := [], pos := q.pos + 1 } with
      input := r, pos := ps, buf := [],
      t := some (.setting q.Equals
        (({ q with
            input := l ++ q.Equals :: r, buf := [],
            pos := q.pos + 1 } : Parser).buf ++ l) []) }
    heof hr rfl
  refine ⟨_, (hentry.trans (hleft.trans hright)), by simp [setRight]⟩

/-! ## Claim C5: the round-trip law for section and setting tokens -/

/-- C5: every section or setting token handed out by `Next` renders, via
its `String` method, to a text that a fresh parser under the same
configuration tokenizes back to an equal token; comment tokens are not
covered. -/
theorem C5_roundtrip (p P2 : Parser) (tok : Token) (heof : p.eof = false)
    (h : p.Next = (P2, some tok, none))
    (hnotc : ∀ m txt, tok ≠ .comment m txt) :
    (freshCfg p (tokString tok)).Next.2.1 = some tok ∧
      (freshCfg p (tokString tok)).Next.2.2 = none := by
  have hT := Next_TokOK p P2 tok heof h
  cases tok with
  | comment m txt => exact absurd rfl (hnotc m txt)
  | sec st en nm =>
    obtain ⟨h1, h2, h3, h4, h5⟩ := hT
    subst h1
    subst h2
    obtain ⟨Q, hloop, hQt, _⟩ := loop_sec_general
      { freshCfg p (tokString (.sec p.SectionStart p.SectionEnd nm))
        with t := none }
      nm rfl h4 (Ne.symm h3) h5 rfl rfl
    have hnext := next_of_loop_tok
      (freshCfg p (tokString (.sec p.SectionStart p.SectionEnd nm))) Q
      (.sec p.SectionStart p.SectionEnd nm) rfl hloop hQt
    rw [hnext]
    exact ⟨rfl, rfl⟩
  | setting e l r =>
    obtain ⟨h1, h2, h3, h4, h5⟩ := hT
    subst h1
    obtain ⟨Q, hloop, hQt⟩ := loop_setting_general
      { freshCfg p (tokString (.setting p.Equals l r)) with t := none }
      l r rfl rfl rfl h2 h3 h4 h5 rfl
    have hnext := next_of_loop_tok
      (freshCfg p (tokString (.setting p.Equals l r))) Q
      (.setting p.Equals l r) rfl hloop hQt
    rw [hnext]
    exact ⟨rfl, rfl⟩

theorem C5_roundtrip_witness :
    (freshCfg (NewParser ['a', '=', 'b', '\n'])
        (tokString (.setting '=' ['a'] ['b']))).Next.2.1 =
        some (.setting '=' ['a'] ['b']) ∧
      (freshCfg (NewParser ['a', '=', 'b', '\n'])
        (tokString (.setting '=' ['a'] ['b']))).Next.2.2 = none :=
  C5_roundtrip (NewParser ['a', '=', 'b', '\n']) _ _ rfl
    (by rw [Next_eq_NextF]; rfl)
    (fun m txt h => Token.noConfusion h)

/-! ## Claim C9: tokens capture the configuration of their creation -/

/-- C9: every token handed out by `Next` carries, in its own fields, the
delimiter and marker runes that were active during the call that created
it, and its `String` rendering is computed from those captured fields
alone, so a later mutation of the parser configuration cannot change it. -/
theorem C9_capture (p P2 : Parser) (tok : Token) (heof : p.eof = false)
    (h : p.Next = (P2, some tok, none)) :
    (∀ st en nm, tok = .sec st en nm →
      st = p.SectionStart ∧ en = p.SectionEnd ∧
        tokString tok = p.SectionStart :: nm ++ [p.SectionEnd]) ∧
    (∀ e l r, tok = .setting e l r →
      e = p.Equals ∧ tokString tok = l ++ p.Equals :: r) ∧
    (∀ m txt, tok = .comment m txt →
      p.Comments.contains m = true ∧ tokString tok = m :: txt) := by
  have hT := Next_TokOK p P2 tok heof h
  refine ⟨fun st en nm he => ?_, fun e l r he => ?_, fun m txt he => ?_⟩
  · subst he
    obtain ⟨h1, h2, _⟩ := hT
    exact ⟨h1, h2, by simp [tokString, h1, h2]⟩
  · subst he
    obtain ⟨h1, _⟩ := hT
    exact ⟨h1, by simp [tokString, h1]⟩
  · subst he
    exact ⟨hT, rfl⟩

theorem C9_capture_witness :
    '[' = (NewParser ['[', 'A', ']', '\n']).SectionStart ∧
      ']' = (NewParser ['[', 'A', ']', '\n']).SectionEnd ∧
      tokString (.sec '[' ']' ['A']) =
        (NewParser ['[', 'A', ']', '\n']).SectionStart :: ['A'] ++
          [(NewParser ['[', 'A', ']', '\n']).SectionEnd] :=
  (C9_capture (NewParser ['[', 'A', ']', '\n']) _ _ rfl
      (by rw [Next_eq_NextF]; rfl)).1 '[' ']' ['A'] rfl

/-! ## Position counters are observational: the `Sim` simulation -/

theorem Sim_refl (p : Parser) : Sim p p :=
  ⟨rfl, rfl, rfl, rfl, rfl, rfl, rfl, rfl⟩

theorem Sim_input {p q : Parser} (h : Sim p q) : p.input = q.input :=
  h.2.2.2.2.1

theorem Sim_pushback {p q : Parser} (c : Char) (h : Sim p q) :
    Sim { p with input := c :: p.input } { q with input := c :: q.input } := by
  obtain ⟨h1, h2, h3, h4, h5, h6, h7, h8⟩ := h
  exact ⟨h1, h2, h3, h4, by rw [h5], h6, h7, h8⟩

theorem track_sim (p q : Parser) (c : Char) (h : Sim p q) :
    Sim (track p c) (track q c) := by
  obtain ⟨h1, h2, h3, h4, h5, h6, h7, h8⟩ := h
  by_cases hc : c = '\n'
  · simp only [track, if_pos hc]
    exact ⟨h1, h2, h3, h4, h5, h6, h7, h8⟩
  · simp only [track, if_neg hc]
    exact ⟨h1, h2, h3, h4, h5, h6, h7, h8⟩

/-- One state step on `Sim`-related parsers: same push-back flag, related
results, related parsers. -/
theorem stepState_sim (s : PState) (p q : Parser) (c : Char) (h : Sim p q) :
    (stepState s q c).2.1 = (stepState s p c).2.1 ∧
      Sim (stepState s p c).1 (stepState s q c).1 ∧
      ResSim (stepState s p c).2.2 (stepState s q c).2.2 := by
  obtain ⟨h1, h2, h3, h4, h5, h6, h7, h8⟩ := h
  cases s
  case start =>
    simp only [stepState, Parser.startState]
    rw [← h2, ← h1]
    split_ifs <;> exact ⟨rfl, ⟨rfl, rfl, h3, h4, h5, h6, rfl, h8⟩, rfl⟩
  case whitespace =>
    simp only [stepState, Parser.whitespaceState]
    rw [← h1]
    split_ifs <;> exact ⟨rfl, ⟨h1, h2, h3, h4, h5, h6, h7, h8⟩, rfl⟩
  case sectionSt =>
    simp only [stepState, Parser.sectionState]
    rw [← h2, ← h3, ← h1]
    split_ifs
    · exact ⟨rfl, ⟨h1, h2, h3, h4, h5, h6, h7, h8⟩, trivial⟩
    · exact ⟨rfl, ⟨rfl, rfl, rfl, h4, h5, h6, h7, by rw [h7]⟩, trivial⟩
    · exact ⟨rfl, ⟨h1, h2, h3, h4, h5, h6, h7, h8⟩, trivial⟩
    · exact ⟨rfl, ⟨rfl, rfl, rfl, h4, h5, h6, by rw [h7], h8⟩, rfl⟩
  case commentSt =>
    rcases ht : p.t with _ | tok
    · have ht2 : q.t = none := by rw [← h8, ht]
      simp only [stepState, Parser.commentState, ht, ht2]
      exact ⟨by trivial, ⟨h1, h2, h3, h4, h5, h6, h7, rfl⟩, by trivial⟩
    · have ht2 : q.t = some tok := by rw [← h8, ht]
      simp only [stepState, Parser.commentState, ht, ht2]
      split_ifs
      · exact ⟨by trivial, ⟨h1, h2, h3, h4, h5, h6, h7, by rw [h7]⟩, by trivial⟩
      · exact ⟨by trivial, ⟨h1, h2, h3, h4, h5, h6, by rw [h7], rfl⟩, by trivial⟩
  case leftSt =>
    simp only [stepState, Parser.leftState]
    rw [← h4, ← h1]
    split_ifs
    · exact ⟨rfl, ⟨h1, h2, h3, h4, h5, h6, h7, h8⟩, trivial⟩
    · exact ⟨rfl, ⟨rfl, h2, h3, rfl, h5, h6, rfl, by rw [h7]⟩, rfl⟩
    · exact ⟨rfl, ⟨h1, h2, h3, h4, h5, h6, h7, h8⟩, trivial⟩
    · exact ⟨rfl, ⟨rfl, h2, h3, rfl, h5, h6, by rw [h7], h8⟩, rfl⟩
  case rightSt =>
    simp only [stepState, Parser.rightState]
    rw [← h1]
    split_ifs
    · exact ⟨rfl, ⟨rfl, h2, h3, h4, h5, h6, h7, by rw [h7, h8]⟩, trivial⟩
    · exact ⟨rfl, ⟨rfl, h2, h3, h4, h5, h6, h7, by rw [h7, h8]⟩, trivial⟩
    · exact ⟨rfl, ⟨rfl, h2, h3, h4, h5, h6, by rw [h7], h8⟩, rfl⟩

/-- The loop of `Next` on `Sim`-related parsers: related final parsers,
and an error is raised on one exactly when it is raised on the other. -/
theorem nextLoop_sim : ∀ (n : Nat) (p q : Parser) (s : PState),
    4 * p.input.length + rank s ≤ n → Sim p q →
    Sim (p.nextLoop s).1 (q.nextLoop s).1 ∧
      ((p.nextLoop s).2 = none ↔ (q.nextLoop s).2 = none) := by
  intro n
  induction n using Nat.strong_induction_on with
  | _ n IH =>
  intro p q s hn hSim
  obtain ⟨g1, g2, g3, g4, g5, g6, g7, g8⟩ := hSim
  rcases hin : p.input with _ | ⟨c, cs⟩
  · have hinq : q.input = [] := by rw [← g5, hin]
    rw [nextLoop_nil p s hin, nextLoop_nil q s hinq]
    have hS1 : Sim (track { p with eof := true } '\n')
        (track { q with eof := true } '\n') :=
      track_sim _ _ _ ⟨g1, g2, g3, g4, g5, rfl, g7, g8⟩
    obtain ⟨hpb, hS2, hres⟩ := stepState_sim s _ _ '\n' hS1
    rcases hsp : stepState s (track { p with eof := true } '\n') '\n'
      with ⟨p2, pb, r⟩
    rcases hsq : stepState s (track { q with eof := true } '\n') '\n'
      with ⟨q2, pb2, r2⟩
    rw [hsp, hsq] at hpb hS2 hres
    cases r with
    | next s2 =>
      cases r2 with
      | next s3 => exact ⟨hS2, by simp⟩
      | done => exact hres.elim
      | error e2 => exact hres.elim
    | done =>
      cases r2 with
      | next s3 => exact hres.elim
      | done => exact ⟨hS2, by simp⟩
      | error e2 => exact hres.elim
    | error e =>
      cases r2 with
      | next s3 => exact hres.elim
      | done => exact hres.elim
      | error e2 => exact ⟨hS2, by simp⟩
  · have hinq : q.input = c :: cs := by rw [← g5, hin]
    have hS1 : Sim (track { p with input := cs } c)
        (track { q with input := cs } c) :=
      track_sim _ _ _ ⟨g1, g2, g3, g4, rfl, g6, g7, g8⟩
    obtain ⟨hpb, hS2, hres⟩ := stepState_sim s _ _ c hS1
    rcases hsp : stepState s (track { p with input := cs } c) c
      with ⟨p2, pb, r⟩
    rcases hsq : stepState s (track { q with input := cs } c) c
      with ⟨q2, pb2, r2⟩
    rw [hsp, hsq] at hpb hS2 hres
    obtain rfl := hpb.symm
    have hp2in : p2.input = cs := by
      have h := stepState_input s (track { p with input := cs } c) c
      rw [hsp] at h
      simpa [track_input] using h
    have hp2eof : p2.eof = p.eof := by
      have h := stepState_eof s (track { p with input := cs } c) c
      rw [hsp] at h
      simpa [track_eof] using h
    cases r with
    | error e =>
      rcases r2 with s3 | _ | e2
      · exact hres.elim
      · exact hres.elim
      rw [nextLoop_cons_error p s c cs hin p2 pb e hsp,
        nextLoop_cons_error q s c cs hinq q2 pb e2 hsq]
      cases pb
      · exact ⟨hS2, by simp⟩
      · exact ⟨Sim_pushback c hS2, by simp⟩
    | done =>
      rcases r2 with s3 | _ | e2
      · exact hres.elim
      case done =>
        rw [nextLoop_cons_done p s c cs hin p2 pb hsp,
          nextLoop_cons_done q s c cs hinq q2 pb hsq]
        cases pb
        · exact ⟨hS2, by simp⟩
        · exact ⟨Sim_pushback c hS2, by simp⟩
      · exact hres.elim
    | next s2 =>
      rcases r2 with s3 | _ | e2
      case next =>
        have hs23 : s2 = s3 := hres
        subst hs23
        have hq2eof : q2.eof = p2.eof := (hS2.2.2.2.2.2.1).symm
        cases pb
        · rw [nextLoop_cons_next p s c cs hin p2 s2 hsp,
            nextLoop_cons_next q s c cs hinq q2 s2 hsq]
          by_cases he2 : p2.eof = true
          · rw [if_pos (by simp [he2]), if_pos (by simp [hq2eof, he2])]
            exact ⟨hS2, by simp⟩
          · rw [if_neg (by simp [he2]), if_neg (by simp [hq2eof, he2])]
            refine IH (4 * cs.length + 3) (by simp [hin] at hn; omega)
              p2 q2 s2 ?_ hS2
            rw [hp2in]
            have := rank_le_three s2
            omega
        · rw [nextLoop_cons_next_pb p s c cs hin p2 s2 hsp,
            nextLoop_cons_next_pb q s c cs hinq q2 s2 hsq]
          have hrk : rank s2 < rank s :=
            stepState_pb_rank s (track { p with input := cs } c) c p2 s2 hsp
          by_cases he2 : p2.eof = true
          · rw [if_pos (by simp [he2]), if_pos (by simp [hq2eof, he2])]
            exact ⟨Sim_pushback c hS2, by simp⟩
          · rw [if_neg (by simp [he2]), if_neg (by simp [hq2eof, he2])]
            refine IH (4 * (c :: cs).length + rank s2)
              (by simp [hin] at hn ⊢; omega)
              _ _ s2 (by simp [hp2in]) (Sim_pushback c hS2)
      · exact hres.elim
      · exact hres.elim

theorem toksN_eq_toksNF : ∀ (n : Nat) (p : Parser), toksN n p = toksNF n p := by
  intro n
  induction n with
  | zero => intro p; rfl
  | succ m ih =>
    intro p
    simp only [toksN, toksNF, Next_eq_NextF, ih]

/-- After the end-of-file flag is set, no call produces a token. -/
theorem toksN_eof : ∀ (n : Nat) (p : Parser), p.eof = true → toksN n p = [] := by
  intro n
  induction n with
  | zero => intro p _; rfl
  | succ m ih =>
    intro p h
    rw [show toksN (m + 1) p =
        (match p.Next.2.1 with
         | some tok => tok :: toksN m p.Next.1
         | none => toksN m p.Next.1) from rfl]
    rw [next_eof p h]
    exact ih p h

/-- A parser whose input is already empty never produces a token. -/
theorem toksN_empty (n : Nat) (p : Parser) (h : p.input = []) :
    toksN n p = [] := by
  cases n with
  | zero => rfl
  | succ m =>
    by_cases he : p.eof = true
    · exact toksN_eof (m + 1) p he
    · have he2 : p.eof = false := by simpa using he
      rw [show toksN (m + 1) p =
          (match p.Next.2.1 with
           | some tok => tok :: toksN m p.Next.1
           | none => toksN m p.Next.1) from rfl]
      rw [next_empty p h he2]
      exact toksN_eof m _ rfl

/-- `Next` on `Sim`-related parsers: the same optional token, and
`Sim`-related successor parsers. -/
theorem Next_sim (p q : Parser) (h : Sim p q) :
    p.Next.2.1 = q.Next.2.1 ∧ Sim p.Next.1 q.Next.1 := by
  obtain ⟨g1, g2, g3, g4, g5, g6, g7, g8⟩ := h
  by_cases he : p.eof = true
  · have heq : q.eof = true := by rw [← g6, he]
    rw [next_eof p he, next_eof q heq]
    exact ⟨rfl, g1, g2, g3, g4, g5, g6, g7, g8⟩
  · have hpe : p.eof = false := by simpa using he
    have hqe : q.eof = false := by rw [← g6, hpe]
    have hS0 : Sim ({ p with t := none } : Parser) { q with t := none } :=
      ⟨g1, g2, g3, g4, g5, g6, g7, rfl⟩
    have hL := nextLoop_sim
      (4 * ({ p with t := none } : Parser).input.length + rank .start)
      { p with t := none } { q with t := none } .start le_rfl hS0
    rcases hlp : Parser.nextLoop { p with t := none } .start with ⟨p2, oe⟩
    rcases hlq : Parser.nextLoop { q with t := none } .start with ⟨q2, oe2⟩
    rw [hlp, hlq] at hL
    obtain ⟨hS2, hiff⟩ := hL
    obtain ⟨k1, k2, k3, k4, k5, k6, k7, k8⟩ := hS2
    rcases oe with _ | e
    · have hoe2 : oe2 = none := hiff.1 rfl
      subst hoe2
      rcases hpt : p2.t with _ | tok
      · have hqt : q2.t = none := by rw [← k8, hpt]
        by_cases hpe2 : p2.eof = true
        · have hqe2 : q2.eof = true := by rw [← k6, hpe2]
          rw [next_of_loop_exhaust p p2 hpe hlp hpe2 hpt,
            next_of_loop_exhaust q q2 hqe hlq hqe2 hqt]
          exact ⟨rfl, k1, k2, k3, k4, k5, k6, k7, k8⟩
        · have hpe3 : p2.eof = false := by simpa using hpe2
          have hx := (nextLoop_start_inv p (by rw [hlp])).2
          rw [hlp] at hx
          exact absurd hpt (hx hpe3)
      · have hqt : q2.t = some tok := by rw [← k8, hpt]
        rw [next_of_loop_tok p p2 tok hpe hlp hpt,
          next_of_loop_tok q q2 tok hqe hlq hqt]
        exact ⟨rfl, k1, k2, k3, k4, k5, k6, k7, k8⟩
    · rcases oe2 with _ | e2
      · exact absurd (hiff.2 rfl) (by simp)
      · rw [next_of_loop_err p p2 e hpe hlp, next_of_loop_err q q2 e2 hqe hlq]
        exact ⟨rfl, k1, k2, k3, k4, k5, k6, k7, k8⟩

/-- Token streams of `Sim`-related parsers coincide. -/
theorem toksN_sim : ∀ (n : Nat) (p q : Parser), Sim p q →
    toksN n p = toksN n q := by
  intro n
  induction n with
  | zero => intro p q _; rfl
  | succ m ih =>
    intro p q h
    obtain ⟨htok, hS⟩ := Next_sim p q h
    rw [show toksN (m + 1) p =
        (match p.Next.2.1 with
         | some tok => tok :: toksN m p.Next.1
         | none => toksN m p.Next.1) from rfl]
    rw [show toksN (m + 1) q =
        (match q.Next.2.1 with
         | some tok => tok :: toksN m q.Next.1
         | none => toksN m q.Next.1) from rfl]
    rw [htok, ih p.Next.1 q.Next.1 hS]

/-! ## Runs of whitespace between tokens -/

/-- From `start`, a whitespace rune is consumed and hands over to state
`whitespace`. -/
theorem start_to_whitespace (p : Parser) (c : Char) (cs : List Char)
    (h : p.input = c :: cs) (heof : p.eof = false)
    (hsp : unicodeIsSpace c = true) :
    p.nextLoop .start =
      Parser.nextLoop { track { p with input := cs } c with buf := [] }
        .whitespace := by
  have hs : stepState .start (track { p with input := cs } c) c =
      ({ track { p with input := cs } c with buf := [] }, false,
        .next .whitespace) := by
    simp [stepState, Parser.startState, hsp]
  rw [nextLoop_cons_next p .start c cs h _ _ hs]
  rw [if_neg (by simp [track_eof, heof])]

/-- State `whitespace` at the end of the input: the synthetic newline is
consumed as whitespace and the loop stops on the end-of-file flag. -/
theorem whitespace_nil (p : Parser) (h : p.input = [])
    (hok : ∀ c, unicodeIsSpace c = true → p.Comments.contains c = false) :
    p.nextLoop .whitespace = (track { p with eof := true } '\n', none) := by
  have hcm : '\n' ∉ p.Comments := by
    simpa using hok '\n' (by decide)
  have hnl : unicodeIsSpace '\n' = true := by decide
  rw [nextLoop_nil p .whitespace h]
  have hs : stepState .whitespace (track { p with eof := true } '\n') '\n' =
      (track { p with eof := true } '\n', false, .next .whitespace) := by
    simp [stepState, Parser.whitespaceState, track_Comments, hcm, hnl]
  rw [hs]

/-- State `whitespace` on a comment marker: push back, hand over to state
`comment`. -/
theorem whitespace_to_comment (p : Parser) (c : Char) (cs : List Char)
    (h : p.input = c :: cs) (heof : p.eof = false)
    (hcm : p.Comments.contains c = true) :
    p.nextLoop .whitespace =
      Parser.nextLoop
        { track { p with input := cs } c with input := c :: cs } .commentSt := by
  have hcm2 : c ∈ p.Comments := by simpa using hcm
  have hs : stepState .whitespace (track { p with input := cs } c) c =
      (track { p with input := cs } c, true, .next .commentSt) := by
    simp [stepState, Parser.whitespaceState, track_Comments, hcm2]
  rw [nextLoop_cons_next_pb p .whitespace c cs h _ _ hs]
  rw [show ({ track { p with input := cs } c with
      input := c :: (track { p with input := cs } c).input } : Parser) =
      { track { p with input := cs } c with input := c :: cs }
    by rw [track_input]]
  rw [if_neg (by simp [track_eof, heof])]

/-- State `whitespace` on a rune that is neither whitespace nor a comment
marker: push back, hand back to state `start`. -/
theorem whitespace_to_start (p : Parser) (c : Char) (cs : List Char)
    (h : p.input = c :: cs) (heof : p.eof = false)
    (hsp : unicodeIsSpace c = false) (hcm : p.Comments.contains c = false) :
    p.nextLoop .whitespace =
      Parser.nextLoop
        { track { p with input := cs } c with input := c :: cs } .start := by
  have hcm2 : c ∉ p.Comments := by simpa using hcm
  have hs : stepState .whitespace (track { p with input := cs } c) c =
      (track { p with input := cs } c, true, .next .start) := by
    simp [stepState, Parser.whitespaceState, track_Comments, hcm2, hsp]
  rw [nextLoop_cons_next_pb p .whitespace c cs h _ _ hs]
  rw [show ({ track { p with input := cs } c with
      input := c :: (track { p with input := cs } c).input } : Parser) =
      { track { p with input := cs } c with input := c :: cs }
    by rw [track_input]]
  rw [if_neg (by simp [track_eof, heof])]

/-- State `whitespace` consumes a whole run of whitespace runes, leaving a
parser that differs from the original only in its position counters. -/
theorem ws_run (ws : List Char) : ∀ (p : Parser) (rest : List Char),
    p.eof = false →
    (∀ c, unicodeIsSpace c = true → p.Comments.contains c = false) →
    (∀ c ∈ ws, unicodeIsSpace c = true) →
    p.input = ws ++ rest →
    ∃ q, Parser.nextLoop p .whitespace = Parser.nextLoop q .whitespace ∧
      Sim q { p with input := rest } := by
  induction ws with
  | nil =>
    intro p rest heof hok hws hin
    have hin2 : p.input = rest := by simpa using hin
    exact ⟨p, rfl, ⟨rfl, rfl, rfl, rfl, hin2, rfl, rfl, rfl⟩⟩
  | cons a ws2 ih =>
    intro p rest heof hok hws hin
    have ha : unicodeIsSpace a = true := hws a (by simp)
    have hcm : a ∉ p.Comments := by simpa using hok a ha
    have hs : stepState .whitespace (track { p with input := ws2 ++ rest } a) a =
        (track { p with input := ws2 ++ rest } a, false, .next .whitespace) := by
      simp [stepState, Parser.whitespaceState, track_Comments, hcm, ha]
    rw [nextLoop_cons_next p .whitespace a (ws2 ++ rest) hin _ _ hs]
    rw [if_neg (by simp [track_eof, heof])]
    obtain ⟨q, hq, hSq⟩ := ih (track { p with input := ws2 ++ rest } a) rest
      (by simp [track_eof, heof])
      (by intro c hc
          rw [track_Comments]
          exact hok c hc)
      (fun c hc => hws c (by simp [hc]))
      (by simp [track_input])
    refine ⟨q, hq, ?_⟩
    obtain ⟨k1, k2, k3, k4, k5, k6, k7, k8⟩ := hSq
    exact ⟨by simpa [track_Comments] using k1,
      by simpa [track_SectionStart] using k2,
      by simpa [track_SectionEnd] using k3,
      by simpa [track_Equals] using k4,
      by simpa using k5,
      by simpa [track_eof] using k6,
      by simpa [track_buf] using k7,
      by simpa [track_t] using k8⟩

/-- Assembly: when the loops of two calls to `Next` pass through
`Sim`-related parsers in the same machine state, the two calls return the
same optional token and `Sim`-related parsers. -/
theorem Next_of_sim_loops (pa pb qa qb : Parser) (s : PState)
    (hea : pa.eof = false) (heb : pb.eof = false)
    (hla : Parser.nextLoop { pa with t := none } .start =
      Parser.nextLoop qa s)
    (hlb : Parser.nextLoop { pb with t := none } .start =
      Parser.nextLoop qb s)
    (hS : Sim qa qb) :
    pa.Next.2.1 = pb.Next.2.1 ∧ Sim pa.Next.1 pb.Next.1 := by
  have hL := nextLoop_sim (4 * qa.input.length + rank s) qa qb s le_rfl hS
  rcases hqa : Parser.nextLoop qa s with ⟨a2, oea⟩
  rcases hqb : Parser.nextLoop qb s with ⟨b2, oeb⟩
  rw [hqa, hqb] at hL
  obtain ⟨hS2, hiff⟩ := hL
  obtain ⟨k1, k2, k3, k4, k5, k6, k7, k8⟩ := hS2
  have hla2 : Parser.nextLoop { pa with t := none } .start = (a2, oea) :=
    hla.trans hqa
  have hlb2 : Parser.nextLoop { pb with t := none } .start = (b2, oeb) :=
    hlb.trans hqb
  rcases oea with _ | e
  · have hoeb : oeb = none := hiff.1 rfl
    subst hoeb
    rcases hat : a2.t with _ | tok
    · have hbt : b2.t = none := by rw [← k8, hat]
      by_cases hae : a2.eof = true
      · have hbe : b2.eof = true := by rw [← k6, hae]
        rw [next_of_loop_exhaust pa a2 hea hla2 hae hat,
          next_of_loop_exhaust pb b2 heb hlb2 hbe hbt]
        exact ⟨rfl, k1, k2, k3, k4, k5, k6, k7, k8⟩
      · have hae2 : a2.eof = false := by simpa using hae
        have hx := (nextLoop_start_inv pa (by rw [hla2])).2
        rw [hla2] at hx
        exact absurd hat (hx hae2)
    · have hbt : b2.t = some tok := by rw [← k8, hat]
      rw [next_of_loop_tok pa a2 tok hea hla2 hat,
        next_of_loop_tok pb b2 tok heb hlb2 hbt]
      exact ⟨rfl, k1, k2, k3, k4, k5, k6, k7, k8⟩
  · rcases oeb with _ | e2
    · exact absurd (hiff.2 rfl) (by simp)
    · rw [next_of_loop_err pa a2 e hea hla2, next_of_loop_err pb b2 e2 heb hlb2]
      exact ⟨rfl, k1, k2, k3, k4, k5, k6, k7, k8⟩

/-- One call to `Next` with a run of whitespace prepended to the input:
no token is made out of the whitespace, the same optional token is
returned as without the run, and the resulting parsers agree up to the
position counters.  (`rest` must not begin with further whitespace; the
general statement follows by maximising the run.) -/
theorem Next_ws (p : Parser) (ws rest : List Char)
    (heof : p.eof = false)
    (hok : ∀ c, unicodeIsSpace c = true → p.Comments.contains c = false)
    (hsscm : p.Comments.contains p.SectionStart = false)
    (hws : ∀ c ∈ ws, unicodeIsSpace c = true)
    (hrest : ∀ c, rest.head? = some c → unicodeIsSpace c = false) :
    ({ p with input := ws ++ rest } : Parser).Next.2.1 =
        ({ p with input := rest } : Parser).Next.2.1 ∧
      Sim ({ p with input := ws ++ rest } : Parser).Next.1
        ({ p with input := rest } : Parser).Next.1 := by
  cases ws with
  | nil => exact ⟨rfl, Sim_refl _⟩
  | cons a ws2 =>
    have ha : unicodeIsSpace a = true := hws a (by simp)
    have e1 := start_to_whitespace
      { ({ p with input := (a :: ws2) ++ rest } : Parser) with t := none }
      a (ws2 ++ rest) rfl heof ha
    obtain ⟨q, e2, hSq⟩ := ws_run ws2
      { track { ({ ({ p with input := (a :: ws2) ++ rest } : Parser) with
          t := none } : Parser) with input := ws2 ++ rest } a with buf := [] }
      rest (by simpa [track_eof] using heof)
      (by intro c hc
          have h := hok c hc
          simpa [track_Comments] using h)
      (fun c hc => hws c (by simp [hc]))
      (by simp [track_input])
    obtain ⟨m1, m2, m3, m4, m5, m6, m7, m8⟩ := hSq
    have hqC : q.Comments = p.Comments := by simpa [track_Comments] using m1
    have hqSS : q.SectionStart = p.SectionStart := by
      simpa [track_SectionStart] using m2
    have hqSE : q.SectionEnd = p.SectionEnd := by
      simpa [track_SectionEnd] using m3
    have hqEq : q.Equals = p.Equals := by simpa [track_Equals] using m4
    have hqin : q.input = rest := by simpa using m5
    have hqe : q.eof = false := by
      have h := m6
      simp [track_eof, heof] at h
      exact h
    have hqb : q.buf = [] := by simpa using m7
    have hqt : q.t = none := by simpa [track_t] using m8
    cases rest with
    | nil =>
      have e3 := whitespace_nil q hqin
        (by intro c hc; rw [hqC]; exact hok c hc)
      have hla := e1.trans (e2.trans e3)
      have hQe : (track { q with eof := true } '\n').eof = true := by
        simp [track_eof]
      have hQt : (track { q with eof := true } '\n').t = none := by
        simp [track_t, hqt]
      rw [next_of_loop_exhaust ({ p with input := (a :: ws2) ++ [] } : Parser)
          _ heof hla hQe hQt,
        next_empty ({ p with input := [] } : Parser) rfl heof]
      exact ⟨rfl, by simp [track_Comments, hqC],
        by simp [track_SectionStart, hqSS],
        by simp [track_SectionEnd, hqSE], by simp [track_Equals, hqEq],
        by simp [track_input, hqin], by simp [track_eof],
        by simp [track_buf, hqb], by simp [track_t, hqt]⟩
    | cons c cs =>
      have hcsp : unicodeIsSpace c = false := hrest c rfl
      by_cases hcm : p.Comments.contains c = true
      · have e3 := whitespace_to_comment q c cs hqin hqe
          (by rw [hqC]; exact hcm)
        have hla := e1.trans (e2.trans e3)
        have hcss : c ≠ p.SectionStart := by
          intro hce
          rw [hce, hsscm] at hcm
          cases hcm
        have e4 := start_to_comment
          { ({ p with input := c :: cs } : Parser) with t := none } c cs rfl
          heof hcsp hcss hcm
        exact Next_of_sim_loops _ _ _ _ .commentSt heof heof hla e4
          ⟨by simp [track_Comments, hqC], by simp [track_SectionStart, hqSS],
            by simp [track_SectionEnd, hqSE], by simp [track_Equals, hqEq],
            by simp [track_input], by simp [track_eof, hqe, heof],
            by simp [track_buf, hqb], by simp [track_t, hqt]⟩
      · have hcm2 : p.Comments.contains c = false := by simpa using hcm
        have e3 := whitespace_to_start q c cs hqin hqe hcsp
          (by rw [hqC]; exact hcm2)
        by_cases hcss : c = p.SectionStart
        · have hqsSS : ({ track { q with input := cs } c with
              input := c :: cs } : Parser).SectionStart = c := by
            simp [track_SectionStart, hqSS, ← hcss]
          have e4 := start_to_section
            ({ track { q with input := cs } c with
              input := c :: cs } : Parser) cs
            (by rw [hqsSS]) (by simpa [track_eof] using hqe)
            (by rw [hqsSS]; exact hcsp)
          have hla := e1.trans (e2.trans (e3.trans e4))
          have e5 := start_to_section
            ({ ({ p with input := c :: cs } : Parser) with t := none }) cs
            (by show (c :: cs : List Char) = p.SectionStart :: cs
                rw [← hcss])
            heof
            (by show unicodeIsSpace p.SectionStart = false
                rw [← hcss]; exact hcsp)
          exact Next_of_sim_loops _ _ _ _ .sectionSt heof heof hla e5
            ⟨by simp [track_Comments, hqC],
              by simp [track_SectionStart, hqSS],
              by simp [track_SectionEnd, hqSE], by simp [track_Equals, hqEq],
              by simp [track_input], by simp [track_eof, hqe, heof],
              by simp [track_buf, hqb], by simp [track_t, hqt]⟩
        · have e4 := start_to_left
            ({ track { q with input := cs } c with
              input := c :: cs } : Parser) c cs rfl
            (by simpa [track_eof] using hqe) hcsp
            (by simpa [track_SectionStart, hqSS] using hcss)
            (by simpa [track_Comments, hqC] using hcm2)
          have hla := e1.trans (e2.trans (e3.trans e4))
          have e5 := start_to_left
            ({ ({ p with input := c :: cs } : Parser) with t := none }) c cs
            rfl heof hcsp hcss hcm2
          exact Next_of_sim_loops _ _ _ _ .leftSt heof heof hla e5
            ⟨by simp [track_Comments, hqC],
              by simp [track_SectionStart, hqSS],
              by simp [track_SectionEnd, hqSE], by simp [track_Equals, hqEq],
              by simp [track_input], by simp [track_eof, hqe, heof],
              by simp [track_buf, hqb], by simp [track_t, hqt]⟩

/-- Token streams with a whitespace run prepended (boundary form: the
remainder does not begin with whitespace). -/
theorem toksN_ws (n : Nat) (p : Parser) (ws rest : List Char)
    (heof : p.eof = false)
    (hok : ∀ c, unicodeIsSpace c = true → p.Comments.contains c = false)
    (hsscm : p.Comments.contains p.SectionStart = false)
    (hws : ∀ c ∈ ws, unicodeIsSpace c = true)
    (hrest : ∀ c, rest.head? = some c → unicodeIsSpace c = false) :
    toksN n { p with input := ws ++ rest } =
      toksN n { p with input := rest } := by
  cases n with
  | zero => rfl
  | succ m =>
    obtain ⟨htok, hS⟩ := Next_ws p ws rest heof hok hsscm hws hrest
    rw [show toksN (m + 1) ({ p with input := ws ++ rest } : Parser) =
        (match ({ p with input := ws ++ rest } : Parser).Next.2.1 with
         | some tok =>
            tok :: toksN m ({ p with input := ws ++ rest } : Parser).Next.1
         | none => toksN m ({ p with input := ws ++ rest } : Parser).Next.1)
      from rfl]
    rw [show toksN (m + 1) ({ p with input := rest } : Parser) =
        (match ({ p with input := rest } : Parser).Next.2.1 with
         | some tok => tok :: toksN m ({ p with input := rest } : Parser).Next.1
         | none => toksN m ({ p with input := rest } : Parser).Next.1)
      from rfl]
    rw [htok, toksN_sim m _ _ hS]

theorem mem_takeWhile_true (f : Char → Bool) :
    ∀ (l : List Char) (c : Char), c ∈ l.takeWhile f → f c = true := by
  intro l
  induction l with
  | nil => intro c h; simp [List.takeWhile] at h
  | cons a l2 ih =>
    intro c h
    by_cases hf : f a = true
    · rw [List.takeWhile_cons_of_pos hf] at h
      rcases List.mem_cons.mp h with h1 | h2
      · rw [h1]; exact hf
      · exact ih c h2
    · rw [List.takeWhile_cons_of_neg (by simpa using hf)] at h
      simp at h

theorem head_dropWhile_false (f : Char → Bool) :
    ∀ (l : List Char) (c : Char), (l.dropWhile f).head? = some c →
      f c = false := by
  intro l
  induction l with
  | nil => intro c h; simp [List.dropWhile] at h
  | cons a l2 ih =>
    intro c h
    by_cases hf : f a = true
    · rw [List.dropWhile_cons_of_pos hf] at h
      exact ih c h
    · rw [List.dropWhile_cons_of_neg (by simpa using hf)] at h
      simp at h
      rw [← h]
      simpa using hf

/-- Whitespace runes are never default comment markers. -/
theorem space_not_marker (c : Char) (hc : unicodeIsSpace c = true) :
    (['#', ';'] : List Char).contains c = false := by
  have h1 : c ≠ '#' := by rintro rfl; exact absurd hc (by decide)
  have h2 : c ≠ ';' := by rintro rfl; exact absurd hc (by decide)
  exact default_contains_false h1 h2

/-! ## Claim C8: whitespace between tokens is invisible -/

/-- C8: a run of whitespace (blank lines included) prepended at a token
boundary never produces a token, and the tokens returned for the rest of
the input are exactly those returned when the run is absent.  The
hypotheses say that no whitespace rune is a comment marker and that the
section-start rune is not a comment marker, both true of the default
configuration. -/
theorem C8_whitespace_invisible (p : Parser) (ws rest : List Char) (n : Nat)
    (hok : ∀ c, unicodeIsSpace c = true → p.Comments.contains c = false)
    (hsscm : p.Comments.contains p.SectionStart = false)
    (hws : ∀ c ∈ ws, unicodeIsSpace c = true) :
    toksN n { p with input := ws ++ rest } =
        toksN n { p with input := rest } ∧
      toksN n { p with input := ws } = [] := by
  by_cases heof : p.eof = true
  · refine ⟨?_, toksN_eof n { p with input := ws } heof⟩
    rw [toksN_eof n ({ p with input := ws ++ rest } : Parser) heof,
      toksN_eof n ({ p with input := rest } : Parser) heof]
  · have heof2 : p.eof = false := by simpa using heof
    have main : ∀ rest2 : List Char,
        toksN n { p with input := ws ++ rest2 } =
          toksN n { p with input := rest2 } := by
      intro rest2
      have hsplit := List.takeWhile_append_dropWhile unicodeIsSpace rest2
      calc toksN n { p with input := ws ++ rest2 }
          = toksN n { p with input :=
              (ws ++ rest2.takeWhile unicodeIsSpace) ++
                rest2.dropWhile unicodeIsSpace } := by
            rw [List.append_assoc, hsplit]
        _ = toksN n { p with input := rest2.dropWhile unicodeIsSpace } := by
            refine toksN_ws n p _ _ heof2 hok hsscm ?_ ?_
            · intro c hc
              rcases List.mem_append.mp hc with h | h
              · exact hws c h
              · exact mem_takeWhile_true unicodeIsSpace rest2 c h
            · intro c hc
              exact head_dropWhile_false unicodeIsSpace rest2 c hc
        _ = toksN n { p with input :=
              rest2.takeWhile unicodeIsSpace ++
                rest2.dropWhile unicodeIsSpace } :=
            (toksN_ws n p _ _ heof2 hok hsscm
              (fun c h => mem_takeWhile_true unicodeIsSpace rest2 c h)
              (fun c hc => head_dropWhile_false unicodeIsSpace rest2 c hc)).symm
        _ = toksN n { p with input := rest2 } := by rw [hsplit]
    refine ⟨main rest, ?_⟩
    have h := main []
    rw [List.append_nil] at h
    rw [h]
    exact toksN_empty n _ rfl

theorem C8_whitespace_invisible_witness :
    toksN 3 { NewParser [] with
        input := [' ', '\n'] ++ ['a', '=', 'b', '\n'] } =
        toksN 3 { NewParser [] with input := ['a', '=', 'b', '\n'] } ∧
      toksN 3 { NewParser [] with input := [' ', '\n'] } = [] :=
  C8_whitespace_invisible (NewParser []) [' ', '\n'] ['a', '=', 'b', '\n'] 3
    (fun c hc => space_not_marker c hc) (by decide) (by decide)

end Ini
